import Mathlib

/-!
Verification development for the madmax-gsrc-editor repository.

The development shallowly embeds the claim-relevant parts of the source:

* the Jenkins lookup3 hash and the hash registry (src/src/utils/hash.ts),
* the ADF container reader (the AdfReader class),
* the GraphScript decoder and connection extractor
  (src/src/parser/gsrc-parser.ts), and
* the layout engine (the layoutNodes function of the flow converter
  with the 8-pass barycenter ordering, layer splitting and the
  variable grid zone).

Modelling conventions:

* Byte buffers are lists of naturals (each byte in [0, 256)); 32-bit
  quantities are naturals taken modulo 2 to the 32, written with an
  explicit reduction where overflow matters.
* DataView reads that would run past the end of the buffer raise a
  range error in JavaScript; fallible reads therefore live in an
  Except monad whose error type mirrors the distinct failure
  messages of the source.  Reads of single bytes through plain
  indexing do not throw in JavaScript (out of range gives undefined);
  they are modelled totally, with the undefined comparison semantics
  of the source preserved.
* Display-only annotation fields of the source records (fields whose
  names start with an underscore, holding resolved name strings and
  display strings) are omitted: no claim concerns them, and the
  passes that compute them cannot fail.
* JavaScript object/Map insertion is modelled by association lists
  with replace-or-append update, which preserves the per-key lookup
  semantics and the insertion-order iteration semantics of Map.
* The sort used by the source is the stable ascending
  Array.prototype.sort; it is modelled by a stable insertion sort.
* Barycenters, computed as floating point quotients sum/count in the
  source, are modelled as exact integer fractions (numerator,
  denominator); all concrete values appearing in the theorems below
  are exactly representable as doubles, so the model and the source
  agree on them.
-/

/-! ## Basic 32-bit arithmetic over naturals -/

/-- The modulus 2^32. -/
def M32 : Nat := 4294967296

/-- Addition modulo 2^32. -/
def add32 (a b : Nat) : Nat := (a + b) % M32

/-- Subtraction modulo 2^32 (operands first reduced). -/
def sub32 (a b : Nat) : Nat := (a % M32 + M32 - b % M32) % M32

/-- Bitwise xor; operands are kept below 2^32 by construction. -/
def xor32 (a b : Nat) : Nat := a ^^^ b

/-- Left rotation of a 32-bit value by n bits (0 < n < 32). -/
def rotl32 (x n : Nat) : Nat := ((x % M32) * 2 ^ n + (x % M32) / 2 ^ (32 - n)) % M32

/-! ## Jenkins lookup3 (src/src/utils/hash.ts, jenkinsLookup3)

The JavaScript source manipulates signed 32-bit views of numbers; all
of its operations depend only on the values modulo 2^32 and all
intermediate sums stay far below 2^53, so the embedding works with
naturals reduced modulo 2^32 at every step. -/

/-- Little-endian 32-bit word assembled from four bytes of a byte
list, missing bytes read as 0 (this coincides with the switch
fall-through of the source, which only adds the bytes that exist). -/
def word32 (k : List Nat) (o : Nat) : Nat :=
  k.getD o 0 + k.getD (o + 1) 0 * 256 + k.getD (o + 2) 0 * 65536 + k.getD (o + 3) 0 * 16777216

/-- The 12-byte block mix schedule of lookup3. -/
def jenkinsMix (a b c : Nat) : Nat × Nat × Nat :=
  let a := xor32 (sub32 a c) (rotl32 c 4)
  let c := add32 c b
  let b := xor32 (sub32 b a) (rotl32 a 6)
  let a := add32 a c
  let c := xor32 (sub32 c b) (rotl32 b 8)
  let b := add32 b a
  let a := xor32 (sub32 a c) (rotl32 c 16)
  let c := add32 c b
  let b := xor32 (sub32 b a) (rotl32 a 19)
  let a := add32 a c
  let c := xor32 (sub32 c b) (rotl32 b 4)
  let b := add32 b a
  (a, b, c)

/-- The final mix schedule of lookup3. -/
def jenkinsFinal (a b c : Nat) : Nat :=
  let c := sub32 (xor32 c b) (rotl32 b 14)
  let a := sub32 (xor32 a c) (rotl32 c 11)
  let b := sub32 (xor32 b a) (rotl32 a 25)
  let c := sub32 (xor32 c b) (rotl32 b 16)
  let a := sub32 (xor32 a c) (rotl32 c 4)
  let b := sub32 (xor32 b a) (rotl32 a 14)
  let c := sub32 (xor32 c b) (rotl32 b 24)
  c

/-- Main loop of jenkinsLookup3: while more than 12 bytes remain,
consume a 12-byte block through the mix schedule; then add the 0..12
remaining bytes (missing bytes contribute 0, as in the switch
fall-through) and apply the final mix.  An empty remainder returns c
unmixed, exactly as the case 0 of the source.  The loop condition
length > 12 is expressed by matching at least 13 elements, keeping
the recursion structural so that it reduces in the kernel. -/
def jenkinsLoop : List Nat → Nat → Nat → Nat → Nat
  | k0 :: k1 :: k2 :: k3 :: k4 :: k5 :: k6 :: k7 :: k8 :: k9 :: k10 :: k11 :: k12 :: rest,
      a, b, c =>
    let a := add32 a (k0 + k1 * 256 + k2 * 65536 + k3 * 16777216)
    let b := add32 b (k4 + k5 * 256 + k6 * 65536 + k7 * 16777216)
    let c := add32 c (k8 + k9 * 256 + k10 * 65536 + k11 * 16777216)
    let m := jenkinsMix a b c
    jenkinsLoop (k12 :: rest) m.1 m.2.1 m.2.2
  | [], _, _, c => c
  | k, a, b, c =>
    let a := add32 a (word32 k 0)
    let b := add32 b (word32 k 4)
    let c := add32 c (word32 k 8)
    jenkinsFinal a b c

/-- Jenkins lookup3 of a byte sequence with a seed, as implemented in
src/src/utils/hash.ts. -/
def jenkinsLookup3 (k : List Nat) (initval : Nat) : Nat :=
  let s := (3735928559 + k.length + initval) % M32
  jenkinsLoop k s s s

/-- Byte sequence of a string as produced by TextEncoder.  All
identifiers handled by the system are ASCII, for which the UTF-8
bytes are the code points. -/
def strBytes (s : String) : List Nat := s.data.map Char.toNat

/-- hashString of the source: seed-zero lookup3 of the UTF-8 bytes. -/
def hashString (s : String) : Nat := jenkinsLookup3 (strBytes s) 0

/-! ## Hash registry (src/src/utils/hash.ts)

KNOWN_HASHES is a plain JavaScript object mapping hash to string; it
is modelled as an association list with replace-or-append update. -/

/-- Registries map 32-bit hashes to strings. -/
abbrev Registry := List (Nat × String)

/-- Plain assignment KNOWN_HASHES[h] = s: replaces an existing entry
for h, otherwise appends. -/
def registrySet (m : Registry) (h : Nat) (s : String) : Registry :=
  if (m.lookup h).isSome then m.map (fun p => if p.1 = h then (h, s) else p) else m ++ [(h, s)]

/-- Guarded assignment used for the bulk dictionary: only inserts
when the hash is not yet present. -/
def registrySetIfAbsent (m : Registry) (h : Nat) (s : String) : Registry :=
  if (m.lookup h).isSome then m else m ++ [(h, s)]

/-- Curated-list build loop: KNOWN_HASHES[hashString s] = s for each
string, overwriting on collision. -/
def buildCurated (m : Registry) (ss : List String) : Registry :=
  ss.foldl (fun m s => registrySet m (hashString s) s) m

/-- Bulk dictionary load loop: insert only when absent (the source
comment says manual entries are not overwritten). -/
def buildBulk (m : Registry) (ss : List String) : Registry :=
  ss.foldl (fun m s => registrySetIfAbsent m (hashString s) s) m

/-- registerHashString of the source: unconditional assignment
KNOWN_HASHES[h] = s, returning the hash. -/
def registerHashString (m : Registry) (s : String) : Registry :=
  registrySet m (hashString s) s

/-- Hex digit characters for the fallback display. -/
def hexDigit (n : Nat) : Char := "0123456789ABCDEF".data.getD n '0'

/-- Fallback display 0xXXXXXXXX (8 uppercase hex digits, h < 2^32). -/
def hexFallback (h : Nat) : String :=
  String.mk ('0' :: 'x' :: (List.range 8).map (fun i => hexDigit (h / 16 ^ (7 - i) % 16)))

/-- resolveHash of the source: the registered string, or the hex
fallback. -/
def resolveHash (m : Registry) (h : Nat) : String :=
  (m.lookup h).getD (hexFallback h)

theorem lookup_cons_key {β : Type} (k : Nat) (v : β) (t : List (Nat × β)) :
    ((k, v) :: t).lookup k = some v := by
  simp [List.lookup_cons]

theorem lookup_cons_ne {β : Type} (k h : Nat) (v : β) (t : List (Nat × β))
    (hp : h ≠ k) : ((k, v) :: t).lookup h = t.lookup h := by
  have : (h == k) = false := by simpa using hp
  simp [List.lookup_cons, this]

theorem lookup_map_overwrite (t : Registry) (h : Nat) (s : String)
    (hmem : (t.lookup h).isSome) :
    (t.map (fun p => if p.1 = h then (h, s) else p)).lookup h = some s := by
  induction t with
  | nil => simp [List.lookup] at hmem
  | cons p t ih =>
    obtain ⟨k, v⟩ := p
    by_cases hp : k = h
    · subst hp
      have head : (fun p => if p.1 = k then (k, s) else p) (k, v) = (k, s) := by simp
      simp only [List.map_cons, head]
      exact lookup_cons_key k s _
    · rw [lookup_cons_ne k h v t (Ne.symm hp)] at hmem
      have head : (fun p => if p.1 = h then (h, s) else p) (k, v) = (k, v) := by simp [hp]
      simp only [List.map_cons, head]
      rw [lookup_cons_ne k h v _ (Ne.symm hp)]
      exact ih hmem

theorem lookup_append_right_of_none (t u : Registry) (h : Nat)
    (hnone : t.lookup h = none) :
    (t ++ u).lookup h = u.lookup h := by
  induction t with
  | nil => simp
  | cons p t ih =>
    obtain ⟨k, v⟩ := p
    by_cases hp : h = k
    · subst hp
      rw [lookup_cons_key] at hnone
      exact absurd hnone (by simp)
    · rw [lookup_cons_ne k h v t hp] at hnone
      rw [List.cons_append, lookup_cons_ne k h v _ hp]
      exact ih hnone

theorem lookup_registrySet_self (m : Registry) (h : Nat) (s : String) :
    (registrySet m h s).lookup h = some s := by
  unfold registrySet
  by_cases hmem : (m.lookup h).isSome
  · simpa [hmem] using lookup_map_overwrite m h s hmem
  · have hnone : m.lookup h = none := Option.not_isSome_iff_eq_none.mp hmem
    simp only [hmem, Bool.false_eq_true, if_false]
    rw [lookup_append_right_of_none m _ h hnone]
    exact lookup_cons_key h s []

theorem lookup_registrySetIfAbsent_of_isSome (m : Registry) (h : Nat) (s : String)
    (hmem : (m.lookup h).isSome) :
    (registrySetIfAbsent m h s).lookup h = m.lookup h := by
  simp [registrySetIfAbsent, hmem]

/-! ## Claim C4: the hash registry and collisions

The two strings below are distinct four-character ASCII strings with
the same lookup3 hash; they witness that registerHashString
overwrites an existing entry (the source executes the unguarded
assignment KNOWN_HASHES[h] = s). -/

/-- Claim C4, counterexample.  The claim says the registry never
overwrites and first registration wins; registering the colliding
string cpxv after ayou makes resolve return cpxv, the later
registration. -/
theorem C4_counterexample :
    hashString "ayou" = hashString "cpxv" ∧ "ayou" ≠ "cpxv" ∧
    resolveHash (registerHashString (registerHashString [] "ayou") "cpxv")
      (hashString "ayou") = "cpxv" := by decide

/-- Claim C4, amended.  Only the bulk dictionary load preserves an
existing entry (first registration wins there); the runtime
registerHashString assigns unconditionally, so for a hash collision
the last registration wins and resolve returns the newest string. -/
theorem C4_registry_overwrite :
    (∀ (m : Registry) (s1 s2 : String), hashString s1 = hashString s2 →
       resolveHash (registerHashString (registerHashString m s1) s2) (hashString s1) = s2)
  ∧ (∀ (m : Registry) (h : Nat) (s : String), (m.lookup h).isSome →
       (registrySetIfAbsent m h s).lookup h = m.lookup h) := by
  constructor
  · intro m s1 s2 hcol
    unfold resolveHash registerHashString
    rw [hcol, lookup_registrySet_self]
    rfl
  · intro m h s hmem
    exact lookup_registrySetIfAbsent_of_isSome m h s hmem

/-- Claim C4, witness for the amended theorem at concrete inputs. -/
theorem C4_witness :
    resolveHash (registerHashString (registerHashString [] "ayou") "cpxv")
      (hashString "ayou") = "cpxv" ∧
    (registrySetIfAbsent [(5, "x")] 5 "y").lookup 5 = [(5, "x")].lookup 5 :=
  ⟨C4_registry_overwrite.1 [] "ayou" "cpxv" (by decide),
   C4_registry_overwrite.2 [(5, "x")] 5 "y" (by decide)⟩

/-! ## Byte buffer reads

DataView.getUint32 throws a RangeError when the four bytes do not
fit in the buffer; plain index reads on a typed array yield
undefined out of range and do not throw. -/

/-- Total little- or big-endian 32-bit read from a byte list; used
where the source has already checked the bounds (DataView over a
value array) and as the value part of the checked read. -/
def readU32 (le : Bool) (k : List Nat) (off : Nat) : Nat :=
  if le then
    k.getD off 0 + k.getD (off + 1) 0 * 256 + k.getD (off + 2) 0 * 65536 +
      k.getD (off + 3) 0 * 16777216
  else
    k.getD off 0 * 16777216 + k.getD (off + 1) 0 * 65536 + k.getD (off + 2) 0 * 256 +
      k.getD (off + 3) 0

/-- Failure values of the decoder.  The source throws untyped Error
objects with three distinct messages plus builtin RangeError for
out-of-bounds DataView reads; the four constructors mirror those
four distinguishable failures. -/
inductive PErr where
  | badMagic
  | unsupportedVersion
  | noInstance
  | rangeError
deriving DecidableEq, Repr

/-- Checked 32-bit read: DataView.getUint32 semantics (RangeError
when off + 4 exceeds the buffer length). -/
def ru32 (le : Bool) (k : List Nat) (off : Nat) : Except PErr Nat :=
  if off + 4 ≤ k.length then .ok (readU32 le k off) else .error .rangeError

/-! ## GraphScript records (src/src/parser/gsrc-parser.ts)

Display annotation fields (resolved names, display strings) are
omitted; see the header comment. -/

/-- Data record: a leaf value. -/
structure GSData where
  name : Nat
  type : Nat
  value : List Nat
  count : Nat
  reference : Bool
deriving DecidableEq, Repr

/-- DataSet: named container of Data records and child DataSets. -/
structure GSDataSet where
  name : Nat
  data : List GSData
  dataSets : List GSDataSet

/-- Node: class hash, function hash and the root DataSet. -/
structure GSNode where
  classHash : Nat
  functionHash : Nat
  dataSet : GSDataSet

/-- Graph: the node list and the global data record whose value
bytes form the global data blob. -/
structure GSGraph where
  nodes : List GSNode
  data : GSData

/-- Kinds of derived connections.  The source uses the strings flow
and variable; the second constructor is named varc because variable
is a reserved word. -/
inductive ConnKind where
  | flow
  | varc
deriving DecidableEq, Repr

/-- Connection record, as emitted by extractConnections. -/
structure GSConnection where
  sourceNodeIndex : Nat
  sourceOutputPinHash : Nat
  targetNodeIndex : Nat
  targetInputPinHash : Nat
  connectionType : ConnKind
deriving DecidableEq, Repr

/-- parseData of the source.  Reads the five header fields of a Data
record at the absolute offset base; the value bytes are materialized
as an array of length valCount, filled from the buffer starting at
the absolute offset P + valRel, with bytes past the end of the
buffer left at zero (Uint8Array.set of a clamped subarray into a
fresh zero array).  The reference flag byte is read by plain
indexing: out of range yields undefined, and undefined compared
against 0 with strict inequality is true. -/
def parseData (le : Bool) (buf : List Nat) (P base : Nat) : Except PErr GSData := do
  let name ← ru32 le buf base
  let ty ← ru32 le buf (base + 4)
  let valRel ← ru32 le buf (base + 8)
  let valCount ← ru32 le buf (base + 16)
  let reference := if base + 24 < buf.length then buf.getD (base + 24) 0 ≠ 0 else True
  let value := if 0 < valRel ∧ 0 < valCount then
      (List.range valCount).map (fun j => buf.getD (P + valRel + j) 0)
    else []
  pure ⟨name, ty, value, valCount, decide reference⟩

/-- parseDataSet of the source.  The child recursion is bounded by a
fuel parameter: the source recurses on offsets read from the file,
and a buffer whose child chains repeat an offset would recurse until
the JavaScript stack overflows (a RangeError); fuel exhaustion
models that failure.  The fuel passed by parseGraph is one more than
the buffer length, which no repetition-free chain can reach, so on
every input on which the source terminates normally the fuel does
not run out. -/
def parseDataSet (le : Bool) (buf : List Nat) (P : Nat) : Nat → Nat → Except PErr GSDataSet
  | 0, _ => .error .rangeError
  | fuel + 1, base => do
    let name ← ru32 le buf base
    let dataRel ← ru32 le buf (base + 8)
    let dataCount ← ru32 le buf (base + 16)
    let dsRel ← ru32 le buf (base + 24)
    let dsCount ← ru32 le buf (base + 32)
    let data ← if 0 < dataRel ∧ 0 < dataCount then
        (List.range dataCount).mapM (fun i => parseData le buf P (P + dataRel + i * 32))
      else pure []
    let children ← if 0 < dsRel ∧ 0 < dsCount then
        (List.range dsCount).mapM (fun i => parseDataSet le buf P fuel (P + dsRel + i * 48))
      else pure []
    pure ⟨name, data, children⟩

/-- parseNode of the source: class hash, function hash, and the
inline root DataSet at base + 0x10. -/
def parseNode (le : Bool) (buf : List Nat) (P fuel base : Nat) : Except PErr GSNode := do
  let classHash ← ru32 le buf base
  let functionHash ← ru32 le buf (base + 8)
  let ds ← parseDataSet le buf P fuel (base + 16)
  pure ⟨classHash, functionHash, ds⟩

/-- parseGraph of the source: nodes relative offset at P, node count
at P + 8, inline global Data record at P + 16, node stride 0x40. -/
def parseGraph (le : Bool) (buf : List Nat) (P : Nat) : Except PErr GSGraph := do
  let nodesRel ← ru32 le buf P
  let nodesCount ← ru32 le buf (P + 8)
  let globalData ← parseData le buf P (P + 16)
  let nodes ← if 0 < nodesRel ∧ 0 < nodesCount then
      (List.range nodesCount).mapM
        (fun i => parseNode le buf P (buf.length + 1) (P + nodesRel + i * 64))
    else pure []
  pure ⟨nodes, globalData⟩

/-! ## ADF container reader (the AdfReader class) -/

/-- Parsed ADF header.  The description is the raw byte sequence of
the null-terminated string at offset 64 (version 4 only). -/
structure AdfHeader where
  fourCC : Nat
  version : Nat
  instanceCount : Nat
  firstInstanceOffset : Nat
  typeCount : Nat
  firstTypeOffset : Nat
  stringHashCount : Nat
  firstStringHashOffset : Nat
  stringCount : Nat
  firstStringDataOffset : Nat
  fileSize : Nat
  description : List Nat
deriving DecidableEq, Repr

/-- Member record of a type directory entry.  The byte offset is
masked to its low 24 bits as in the source. -/
structure AdfTypeMember where
  name : List Nat
  nameHash : Nat
  typeHash : Nat
  size : Nat
  offset : Nat
  defaultValue : Nat
  bitOffset : Nat
deriving DecidableEq, Repr

/-- Type directory entry. -/
structure AdfType where
  nameHash : Nat
  name : List Nat
  adfType : Nat
  size : Nat
  alignment : Nat
  memberCount : Nat
  members : List AdfTypeMember
  subTypeHash : Option Nat
deriving DecidableEq, Repr

/-- Instance directory entry. -/
structure AdfInstance where
  nameHash : Nat
  typeHash : Nat
  payloadOffset : Nat
  payloadSize : Nat
  name : List Nat
deriving DecidableEq, Repr

/-- readCString of the source: bytes from the offset up to (not
including) the first zero byte or the end of the buffer. -/
def readCString (buf : List Nat) (off : Nat) : List Nat :=
  (buf.drop off).takeWhile (fun b => b ≠ 0)

/-- readTypeName of the source: empty for a zero relative offset,
otherwise a C string at typeStart + nameOffset. -/
def readTypeName (buf : List Nat) (typeStart nameOffset : Nat) : List Nat :=
  if nameOffset = 0 then [] else readCString buf (typeStart + nameOffset)

/-- Skip one null-terminated string: advance past its bytes and the
terminator (the terminator is skipped even at the end of buffer,
mirroring the unconditional offset increment of the source). -/
def skipCString (buf : List Nat) (off : Nat) : Nat :=
  off + ((buf.drop off).takeWhile (fun b => b ≠ 0)).length + 1

/-- Offset of entry i of the string data table. -/
def stringTableOffset (buf : List Nat) (base : Nat) : Nat → Nat
  | 0 => base
  | i + 1 => skipCString buf (stringTableOffset buf base i)

/-- readStringFromTable of the source. -/
def readStringFromTable (buf : List Nat) (base idx : Nat) : List Nat :=
  readCString buf (stringTableOffset buf base idx)

/-- Decimal digit bytes of a natural number, for the synthetic
instance names of the source (backtick template instance_i). -/
def natDecimalBytes (n : Nat) : List Nat :=
  (Nat.toDigits 10 n).map Char.toNat

/-- Synthetic instance name instance_i as a byte sequence. -/
def instanceNameBytes (i : Nat) : List Nat :=
  strBytes "instance_" ++ natDecimalBytes i

/-- parseHeader of the source.  The magic is always read
little-endian; it selects the endianness for every later read.
Unknown magic and unknown version are the two typed failures here;
reads past the end of the buffer fail like any DataView read. -/
def parseHeader (buf : List Nat) : Except PErr (Bool × AdfHeader) := do
  let magic ← ru32 true buf 0
  let le ← if magic = 0x41444620 then pure true
    else if magic = 0x20464441 then pure false
    else .error PErr.badMagic
  let version ← ru32 le buf 4
  if version = 4 then do
    let instanceCount ← ru32 le buf 8
    let firstInstanceOffset ← ru32 le buf 12
    let typeCount ← ru32 le buf 16
    let firstTypeOffset ← ru32 le buf 20
    let stringHashCount ← ru32 le buf 24
    let firstStringHashOffset ← ru32 le buf 28
    let stringCount ← ru32 le buf 32
    let firstStringDataOffset ← ru32 le buf 36
    let fileSize ← ru32 le buf 40
    pure (le, ⟨magic, version, instanceCount, firstInstanceOffset, typeCount, firstTypeOffset,
      stringHashCount, firstStringHashOffset, stringCount, firstStringDataOffset, fileSize,
      readCString buf 64⟩)
  else if version = 3 then do
    let instanceCount ← ru32 le buf 8
    let firstInstanceOffset ← ru32 le buf 12
    let typeCount ← ru32 le buf 16
    let firstTypeOffset ← ru32 le buf 20
    let stringHashCount ← ru32 le buf 24
    let firstStringHashOffset ← ru32 le buf 28
    pure (le, ⟨magic, version, instanceCount, firstInstanceOffset, typeCount, firstTypeOffset,
      stringHashCount, firstStringHashOffset, 0, 0, 0, []⟩)
  else if version = 2 then do
    let instanceCount ← ru32 le buf 8
    let firstInstanceOffset ← ru32 le buf 12
    let typeCount ← ru32 le buf 16
    let firstTypeOffset ← ru32 le buf 20
    pure (le, ⟨magic, version, instanceCount, firstInstanceOffset, typeCount, firstTypeOffset,
      0, 0, 0, 0, 0, []⟩)
  else .error PErr.unsupportedVersion

/-- One member record of a type entry (eight consecutive u32 reads). -/
def parseTypeMember (le : Bool) (buf : List Nat) (typeStart mOff : Nat) :
    Except PErr AdfTypeMember := do
  let mNameHash ← ru32 le buf mOff
  let mTypeHash ← ru32 le buf (mOff + 4)
  let mOffset ← ru32 le buf (mOff + 8)
  let mSize ← ru32 le buf (mOff + 12)
  let mBitOffset ← ru32 le buf (mOff + 16)
  let mDefaultValue ← ru32 le buf (mOff + 20)
  let mNameOff ← ru32 le buf (mOff + 24)
  let _mFlags ← ru32 le buf (mOff + 28)
  pure ⟨readTypeName buf typeStart mNameOff, mNameHash, mTypeHash, mSize,
    mOffset &&& 0xFFFFFF, mDefaultValue, mBitOffset⟩

/-- One type directory entry; returns the entry and its member count
(the count determines the stride to the next entry). -/
def parseOneType (le : Bool) (buf : List Nat) (typeStart : Nat) :
    Except PErr (AdfType × Nat) := do
  let adfType ← ru32 le buf typeStart
  let size ← ru32 le buf (typeStart + 4)
  let alignment ← ru32 le buf (typeStart + 8)
  let nameHash ← ru32 le buf (typeStart + 12)
  let nameOffset ← ru32 le buf (typeStart + 16)
  let _flags ← ru32 le buf (typeStart + 20)
  let memberCount ← ru32 le buf (typeStart + 24)
  let membersOffset ← ru32 le buf (typeStart + 28)
  let name := readTypeName buf typeStart nameOffset
  let members ← if 0 < memberCount ∧ 0 < membersOffset then
      (List.range memberCount).mapM
        (fun m => parseTypeMember le buf typeStart (typeStart + membersOffset + m * 32))
    else pure []
  let subTypeHash := if adfType = 3 ∨ adfType = 4 then
      match members with
      | m :: _ => some m.typeHash
      | [] => none
    else none
  pure (⟨nameHash, name, adfType, size, alignment, memberCount, members, subTypeHash⟩,
    memberCount)

/-- Generic replace-or-append update for association lists, the
semantics of Map.set. -/
def assocSet {β : Type} (m : List (Nat × β)) (k : Nat) (v : β) : List (Nat × β) :=
  if (m.lookup k).isSome then m.map (fun p => if p.1 = k then (k, v) else p) else m ++ [(k, v)]

/-- Type directory loop: typeCount variable-size entries, the next
entry starting 32 + 32 * memberCount bytes after the current one;
entries are stored in a map keyed by name hash. -/
def parseTypesLoop (le : Bool) (buf : List Nat) :
    Nat → Nat → List (Nat × AdfType) → Except PErr (List (Nat × AdfType))
  | 0, _, acc => .ok acc
  | n + 1, offset, acc => do
    let (t, memberCount) ← parseOneType le buf offset
    parseTypesLoop le buf n (offset + 32 + memberCount * 32) (assocSet acc t.nameHash t)

/-- Instance directory loop: 24-byte entries with a string table
name index for version at least 4, 48-byte entries with a synthetic
name otherwise. -/
def parseInstancesLoop (le : Bool) (buf : List Nat) (h : AdfHeader) :
    Nat → Nat → Nat → List AdfInstance → Except PErr (List AdfInstance)
  | 0, _, _, acc => .ok acc
  | n + 1, offset, i, acc => do
    if 4 ≤ h.version then do
      let nameHash ← ru32 le buf offset
      let typeHash ← ru32 le buf (offset + 4)
      let payloadOffset ← ru32 le buf (offset + 8)
      let payloadSize ← ru32 le buf (offset + 12)
      let nameIdx ← ru32 le buf (offset + 16)
      let name := if 0 < h.firstStringDataOffset ∧ nameIdx < h.stringCount then
          readStringFromTable buf h.firstStringDataOffset nameIdx
        else instanceNameBytes i
      parseInstancesLoop le buf h n (offset + 24) (i + 1)
        (acc ++ [⟨nameHash, typeHash, payloadOffset, payloadSize, name⟩])
    else do
      let nameHash ← ru32 le buf offset
      let typeHash ← ru32 le buf (offset + 4)
      let payloadOffset ← ru32 le buf (offset + 8)
      let payloadSize ← ru32 le buf (offset + 12)
      parseInstancesLoop le buf h n (offset + 48) (i + 1)
        (acc ++ [⟨nameHash, typeHash, payloadOffset, payloadSize, instanceNameBytes i⟩])

/-- Result of AdfReader.parse. -/
structure AdfState where
  le : Bool
  header : AdfHeader
  types : List (Nat × AdfType)
  instances : List AdfInstance
deriving DecidableEq, Repr

/-- AdfReader.parse of the source: header, type directory, instance
directory. -/
def adfParse (buf : List Nat) : Except PErr AdfState := do
  let (le, header) ← parseHeader buf
  let types ← parseTypesLoop le buf header.typeCount header.firstTypeOffset []
  let instances ← parseInstancesLoop le buf header header.instanceCount
    header.firstInstanceOffset 0 []
  pure ⟨le, header, types, instances⟩

/-! ## Connection extraction (src/src/parser/gsrc-parser.ts) -/

/-- Precomputed hash of the literal output_pins. -/
def HASH_OUTPUT_PINS : Nat := hashString "output_pins"

/-- Precomputed hash of the literal variable_pins. -/
def HASH_VARIABLE_PINS : Nat := hashString "variable_pins"

/-- resolveConnectionTarget of the source: none for an empty blob or
an offset whose four bytes do not fit, otherwise the u32 at the
offset. -/
def resolveConnectionTarget (globalDataValue : List Nat) (le : Bool) (offset : Nat) :
    Option Nat :=
  if globalDataValue.length = 0 ∨ globalDataValue.length < offset + 4 then none
  else some (readU32 le globalDataValue offset)

/-- Connections contributed by one descriptor of an output pin. -/
def flowConnOfDescriptor (le : Bool) (g : GSGraph) (ni : Nat) (pinName : Nat)
    (cd : GSData) : List GSConnection :=
  if 4 ≤ cd.value.length then
    match resolveConnectionTarget g.data.value le (readU32 le cd.value 0) with
    | some ti =>
      if ti < g.nodes.length then [⟨ni, pinName, ti, cd.name, ConnKind.flow⟩] else []
    | none => []
  else []

/-- Connections contributed by one descriptor of a variable pin;
direction reversed (the dereferenced index is the source, the
current node the target, the pin hash used on both ends). -/
def varConnOfDescriptor (le : Bool) (g : GSGraph) (ni : Nat) (pinName : Nat)
    (cd : GSData) : List GSConnection :=
  if 4 ≤ cd.value.length then
    match resolveConnectionTarget g.data.value le (readU32 le cd.value 0) with
    | some ti =>
      if ti < g.nodes.length then [⟨ti, pinName, ni, pinName, ConnKind.varc⟩] else []
    | none => []
  else []

/-- extractConnections of the source: for every node, the descriptors
under the first child DataSet named output_pins yield flow
connections and the descriptors under the first child named
variable_pins yield variable connections, in loop order. -/
def extractConnections (le : Bool) (g : GSGraph) : List GSConnection :=
  g.nodes.enum.flatMap (fun p =>
    (match p.2.dataSet.dataSets.find? (fun ds => ds.name == HASH_OUTPUT_PINS) with
     | some outDS =>
       outDS.dataSets.flatMap (fun pinDS =>
         pinDS.data.flatMap (fun cd => flowConnOfDescriptor le g p.1 pinDS.name cd))
     | none => []) ++
    (match p.2.dataSet.dataSets.find? (fun ds => ds.name == HASH_VARIABLE_PINS) with
     | some varDS =>
       varDS.dataSets.flatMap (fun pinDS =>
         pinDS.data.flatMap (fun cd => varConnOfDescriptor le g p.1 pinDS.name cd))
     | none => []))

/-- Result record of GsrcParser.parse (the raw buffer field is the
input itself and is omitted). -/
structure GSrcFile where
  graph : GSGraph
  connections : List GSConnection
  internalData : List Nat
  adfVersion : Nat

/-- GsrcParser.parse of the source: run the ADF reader, fail with
the No-instances error when the instance directory is empty, then
decode the payload of the first instance as a Graph and extract the
connections.  The resolveVariableNodeData pass between the two
steps only rewrites display annotation fields and cannot fail; it is
omitted together with those fields. -/
def gsrcParse (buf : List Nat) : Except PErr GSrcFile := do
  let st ← adfParse buf
  match st.instances with
  | [] => .error PErr.noInstance
  | inst :: _ => do
    let P := inst.payloadOffset
    let graph ← parseGraph st.le buf P
    let conns := extractConnections st.le graph
    pure ⟨graph, conns, (buf.drop P).take inst.payloadSize, st.header.version⟩

/-! ## Claim C2: Data record byte counts -/

deriving instance DecidableEq for Except

theorem exceptOkBind {ε α β : Type} (x : α) (f : α → Except ε β) :
    (Except.ok x >>= f) = f x := rfl

theorem exceptErrBind {ε α β : Type} (e : ε) (f : α → Except ε β) :
    (Except.error e >>= f : Except ε β) = Except.error e := rfl

theorem exceptPure {ε α : Type} (x : α) : (pure x : Except ε α) = Except.ok x := rfl

theorem exceptMapOk {ε α β : Type} (f : α → β) (x : α) :
    (f <$> (Except.ok x : Except ε α)) = Except.ok (f x) := rfl

theorem exceptMapErr {ε α β : Type} (f : α → β) (e : ε) :
    (f <$> (Except.error e : Except ε α)) = Except.error e := rfl

/-- Characterization of the materialized value bytes of parseData:
the decoded count is stored unchanged in the record, and the value
array has exactly that length when both the stored relative offset
and the count are nonzero (bytes past the end of the buffer are
zero-filled rather than clipped), and length zero otherwise.  No
comparison against the remaining payload size is performed
anywhere. -/
theorem C2_parseData_value_length (le : Bool) (buf : List Nat) (P base : Nat) (d : GSData)
    (h : parseData le buf P base = .ok d) :
    d.count = readU32 le buf (base + 16) ∧
    d.value.length =
      (if 0 < readU32 le buf (base + 8) ∧ 0 < readU32 le buf (base + 16) then
        readU32 le buf (base + 16) else 0) := by
  unfold parseData ru32 at h
  by_cases h1 : base + 4 ≤ buf.length
  · simp only [h1, if_true, exceptOkBind] at h
    by_cases h2 : base + 4 + 4 ≤ buf.length
    · simp only [h2, if_true, exceptOkBind] at h
      by_cases h3 : base + 8 + 4 ≤ buf.length
      · simp only [h3, if_true, exceptOkBind] at h
        by_cases h4 : base + 16 + 4 ≤ buf.length
        · simp only [h4, if_true, exceptOkBind, exceptPure, exceptMapOk] at h
          obtain rfl :
              (⟨readU32 le buf base, readU32 le buf (base + 4),
                if 0 < readU32 le buf (base + 8) ∧ 0 < readU32 le buf (base + 16) then
                  (List.range (readU32 le buf (base + 16))).map
                    (fun j => buf.getD (P + readU32 le buf (base + 8) + j) 0)
                else [],
                readU32 le buf (base + 16), _⟩ : GSData) = d := by
            exact Except.ok.inj h
          refine ⟨rfl, ?_⟩
          by_cases h5 : 0 < readU32 le buf (base + 8) ∧ 0 < readU32 le buf (base + 16)
          · simp [h5]
          · simp [h5]
        · simp [h4, exceptErrBind, exceptMapErr] at h
      · simp [h3, exceptErrBind, exceptMapErr] at h
    · simp [h2, exceptErrBind, exceptMapErr] at h
  · simp [h1, exceptErrBind, exceptMapErr] at h

/-- Concrete 21-byte buffer decoding to a Data record with stored
offset zero and count 100. -/
def C2buf : List Nat :=
  [0, 0, 0, 0, 0, 0, 0, 0, 0, 0, 0, 0, 0, 0, 0, 0, 100, 0, 0, 0, 0]

/-- Claim C2, counterexample.  The record decoded from C2buf has
byte count 100 but an empty value array (the stored value offset is
zero), and its byte count also exceeds the whole 21-byte payload: the
claimed invariants value_bytes.length = byte_count and byte_count
bounded by the remaining payload both fail. -/
theorem C2_counterexample :
    parseData true C2buf 0 0 = .ok ⟨0, 0, [], 100, true⟩ ∧
    (0 : Nat) ≠ 100 ∧ C2buf.length < 100 := by decide

/-- Claim C2, witness for the characterization theorem at a concrete
input. -/
theorem C2_witness :
    ((⟨0, 0, [], 100, true⟩ : GSData).count = readU32 true C2buf 16) ∧
    ((⟨0, 0, [], 100, true⟩ : GSData).value.length =
      (if 0 < readU32 true C2buf 8 ∧ 0 < readU32 true C2buf 16 then
        readU32 true C2buf 16 else 0)) :=
  C2_parseData_value_length true C2buf 0 0 ⟨0, 0, [], 100, true⟩ (by decide)

/-! ## Claim C1: connection closure and emission -/

theorem flowConnOfDescriptor_closure (le : Bool) (g : GSGraph) (ni pinName : Nat)
    (cd : GSData) (c : GSConnection) (hni : ni < g.nodes.length)
    (hc : c ∈ flowConnOfDescriptor le g ni pinName cd) :
    c.sourceNodeIndex < g.nodes.length ∧ c.targetNodeIndex < g.nodes.length := by
  unfold flowConnOfDescriptor at hc
  split at hc
  · split at hc
    · split at hc
      · rw [List.mem_singleton] at hc
        subst hc
        exact ⟨hni, by assumption⟩
      · simp at hc
    · simp at hc
  · simp at hc

theorem varConnOfDescriptor_closure (le : Bool) (g : GSGraph) (ni pinName : Nat)
    (cd : GSData) (c : GSConnection) (hni : ni < g.nodes.length)
    (hc : c ∈ varConnOfDescriptor le g ni pinName cd) :
    c.sourceNodeIndex < g.nodes.length ∧ c.targetNodeIndex < g.nodes.length := by
  unfold varConnOfDescriptor at hc
  split at hc
  · split at hc
    · split at hc
      · rw [List.mem_singleton] at hc
        subst hc
        exact ⟨by assumption, hni⟩
      · simp at hc
    · simp at hc
  · simp at hc

/-- Claim C1.  Connection closure and emission for extractConnections:
every emitted connection has both node indices inside
[0, nodes.length); and every descriptor under the located output_pins
or variable_pins child whose value holds at least 4 bytes, whose
stored offset dereferences inside the global blob, and whose
dereferenced index is in range, contributes its connection to the
output (descriptors failing one of the three checks contribute
nothing, which the closure part makes impossible to observe as an
out-of-range edge). -/
theorem C1_connection_closure (le : Bool) (g : GSGraph) :
    (∀ c ∈ extractConnections le g,
      c.sourceNodeIndex < g.nodes.length ∧ c.targetNodeIndex < g.nodes.length) ∧
    (∀ ni node outDS pinDS cd ti,
      g.nodes[ni]? = some node →
      node.dataSet.dataSets.find? (fun ds => ds.name == HASH_OUTPUT_PINS) = some outDS →
      pinDS ∈ outDS.dataSets → cd ∈ pinDS.data → 4 ≤ cd.value.length →
      resolveConnectionTarget g.data.value le (readU32 le cd.value 0) = some ti →
      ti < g.nodes.length →
      (⟨ni, pinDS.name, ti, cd.name, ConnKind.flow⟩ : GSConnection) ∈
        extractConnections le g) ∧
    (∀ ni node varDS pinDS cd ti,
      g.nodes[ni]? = some node →
      node.dataSet.dataSets.find? (fun ds => ds.name == HASH_VARIABLE_PINS) = some varDS →
      pinDS ∈ varDS.dataSets → cd ∈ pinDS.data → 4 ≤ cd.value.length →
      resolveConnectionTarget g.data.value le (readU32 le cd.value 0) = some ti →
      ti < g.nodes.length →
      (⟨ti, pinDS.name, ni, pinDS.name, ConnKind.varc⟩ : GSConnection) ∈
        extractConnections le g) := by
  refine ⟨?_, ?_, ?_⟩
  · intro c hc
    rw [extractConnections, List.mem_flatMap] at hc
    obtain ⟨p, hp, hcp⟩ := hc
    obtain ⟨ni, node⟩ := p
    have hni : ni < g.nodes.length := (List.mem_enum hp).1
    rcases List.mem_append.mp hcp with hside | hside
    · rcases hfind : node.dataSet.dataSets.find? (fun ds => ds.name == HASH_OUTPUT_PINS) with
        _ | outDS
      · rw [hfind] at hside
        simp at hside
      · rw [hfind] at hside
        rw [List.mem_flatMap] at hside
        obtain ⟨pinDS, _, hside⟩ := hside
        rw [List.mem_flatMap] at hside
        obtain ⟨cd, _, hside⟩ := hside
        exact flowConnOfDescriptor_closure le g ni pinDS.name cd c hni hside
    · rcases hfind : node.dataSet.dataSets.find? (fun ds => ds.name == HASH_VARIABLE_PINS) with
        _ | varDS
      · rw [hfind] at hside
        simp at hside
      · rw [hfind] at hside
        rw [List.mem_flatMap] at hside
        obtain ⟨pinDS, _, hside⟩ := hside
        rw [List.mem_flatMap] at hside
        obtain ⟨cd, _, hside⟩ := hside
        exact varConnOfDescriptor_closure le g ni pinDS.name cd c hni hside
  · intro ni node outDS pinDS cd ti hget hfind hpin hcd hlen hres hti
    rw [extractConnections, List.mem_flatMap]
    refine ⟨(ni, node), List.mk_mem_enum_iff_getElem?.mpr hget, ?_⟩
    apply List.mem_append.mpr
    left
    rw [hfind, List.mem_flatMap]
    refine ⟨pinDS, hpin, ?_⟩
    rw [List.mem_flatMap]
    refine ⟨cd, hcd, ?_⟩
    unfold flowConnOfDescriptor
    rw [if_pos hlen, hres]
    simp [hti]
  · intro ni node varDS pinDS cd ti hget hfind hpin hcd hlen hres hti
    rw [extractConnections, List.mem_flatMap]
    refine ⟨(ni, node), List.mk_mem_enum_iff_getElem?.mpr hget, ?_⟩
    apply List.mem_append.mpr
    right
    rw [hfind, List.mem_flatMap]
    refine ⟨pinDS, hpin, ?_⟩
    rw [List.mem_flatMap]
    refine ⟨cd, hcd, ?_⟩
    unfold varConnOfDescriptor
    rw [if_pos hlen, hres]
    simp [hti]

/-- Concrete connection descriptor for the C1 witness: four value
bytes storing offset 16. -/
def C1cd : GSData := ⟨7, 0, [16, 0, 0, 0], 4, false⟩

/-- Concrete pin DataSet named done holding the descriptor. -/
def C1pin : GSDataSet := ⟨hashString "done", [C1cd], []⟩

/-- Concrete output_pins child DataSet. -/
def C1outDS : GSDataSet := ⟨HASH_OUTPUT_PINS, [], [C1pin]⟩

/-- Concrete node with one output pin. -/
def C1node : GSNode := ⟨0, 0, ⟨0, [], [C1outDS]⟩⟩

/-- Concrete graph: one node, a 20-byte all-zero global blob (the
u32 at offset 16 is 0, the index of the only node). -/
def C1graph : GSGraph := ⟨[C1node], ⟨0, 0, List.replicate 20 0, 20, false⟩⟩

/-- Claim C1, witness: the closure and emission parts applied to the
concrete one-node graph. -/
theorem C1_witness :
    ((⟨0, hashString "done", 0, 7, ConnKind.flow⟩ : GSConnection).sourceNodeIndex <
        C1graph.nodes.length ∧
      (⟨0, hashString "done", 0, 7, ConnKind.flow⟩ : GSConnection).targetNodeIndex <
        C1graph.nodes.length) ∧
    (⟨0, hashString "done", 0, 7, ConnKind.flow⟩ : GSConnection) ∈
      extractConnections true C1graph :=
  have hmem : (⟨0, hashString "done", 0, 7, ConnKind.flow⟩ : GSConnection) ∈
      extractConnections true C1graph :=
    (C1_connection_closure true C1graph).2.1 0 C1node C1outDS C1pin C1cd 0 rfl rfl
      (List.mem_singleton.mpr rfl) (List.mem_singleton.mpr rfl)
      (by decide) (by decide) (by decide)
  ⟨(C1_connection_closure true C1graph).1 _ hmem, hmem⟩

/-! ## Claim C5: the failure surface of decoding -/

/-- Payload windows (offset, size) of the instances, when the
envelope parses. -/
def adfInstanceWindows (buf : List Nat) : Option (List (Nat × Nat)) :=
  (adfParse buf).toOption.map (fun st => st.instances.map (fun i => (i.payloadOffset, i.payloadSize)))

/-- Error of a full decode, if any. -/
def gsrcErrOf (buf : List Nat) : Option PErr :=
  match gsrcParse buf with
  | .error e => some e
  | .ok _ => none

/-- Concrete 108-byte buffer whose ADF envelope (version 2 header,
empty type directory, one instance whose declared payload window
48..108 lies entirely inside the buffer) is well formed, but whose
GraphScript payload stores a nodes offset of 1000, far outside the
buffer. -/
def C5buf : List Nat :=
  [32, 70, 68, 65, 2, 0, 0, 0,
   1, 0, 0, 0, 24, 0, 0, 0,
   0, 0, 0, 0, 0, 0, 0, 0,
   0, 0, 0, 0, 0, 0, 0, 0, 48, 0, 0, 0, 60, 0, 0, 0,
   0, 0, 0, 0, 0, 0, 0, 0,
   232, 3, 0, 0, 0, 0, 0, 0, 1, 0, 0, 0] ++ List.replicate 48 0

/-- Claim C5, counterexample.  The envelope of C5buf parses cleanly
(good magic, version 2, one instance, declared payload window inside
the buffer), so none of BadMagic, UnsupportedVersion, NoInstance or
an envelope-level Truncated applies; decoding nevertheless fails,
with the untyped range error raised while walking the GraphScript
payload.  Failure is therefore not equivalent to envelope-level
malformation, and the failing read surfaces as a plain range error
rather than a typed Truncated value. -/
theorem C5_counterexample :
    adfInstanceWindows C5buf = some [(48, 60)] ∧ 48 + 60 ≤ C5buf.length ∧
    gsrcErrOf C5buf = some PErr.rangeError := by decide

/-- Claim C5, amended.  The three typed failures behave as claimed:
a first-four-byte magic other than the two accepted values fails
with the Invalid-magic error, a version outside 2, 3, 4 fails with
the Unsupported-version error, and an envelope with zero instances
fails with the No-instances error.  Every other failure, including
payload-level malformation, is an untyped out-of-bounds-read range
error. -/
theorem C5_error_taxonomy (buf : List Nat) :
    (4 ≤ buf.length → readU32 true buf 0 ≠ 0x41444620 → readU32 true buf 0 ≠ 0x20464441 →
      gsrcParse buf = .error PErr.badMagic) ∧
    (readU32 true buf 0 = 0x41444620 → 8 ≤ buf.length →
      readU32 true buf 4 ≠ 2 → readU32 true buf 4 ≠ 3 → readU32 true buf 4 ≠ 4 →
      gsrcParse buf = .error PErr.unsupportedVersion) ∧
    (readU32 true buf 0 = 0x20464441 → 8 ≤ buf.length →
      readU32 false buf 4 ≠ 2 → readU32 false buf 4 ≠ 3 → readU32 false buf 4 ≠ 4 →
      gsrcParse buf = .error PErr.unsupportedVersion) ∧
    (∀ st, adfParse buf = .ok st → st.instances = [] →
      gsrcParse buf = .error PErr.noInstance) := by
  refine ⟨?_, ?_, ?_, ?_⟩
  · intro h4 hm1 hm2
    have hr : ru32 true buf 0 = .ok (readU32 true buf 0) := by
      unfold ru32
      rw [if_pos (by omega)]
    unfold gsrcParse adfParse parseHeader
    rw [hr]
    simp only [exceptOkBind, if_neg hm1, if_neg hm2, exceptErrBind]
  · intro hm h8 hv2 hv3 hv4
    have hr : ru32 true buf 0 = .ok (readU32 true buf 0) := by
      unfold ru32
      rw [if_pos (by omega)]
    have hr4 : ru32 true buf 4 = .ok (readU32 true buf 4) := by
      unfold ru32
      rw [if_pos (by omega)]
    unfold gsrcParse adfParse parseHeader
    rw [hr]
    simp only [exceptOkBind, if_pos hm, exceptPure]
    rw [hr4]
    simp only [exceptOkBind, if_neg hv4, if_neg hv3, if_neg hv2, exceptErrBind]
  · intro hm h8 hv2 hv3 hv4
    have hr : ru32 true buf 0 = .ok (readU32 true buf 0) := by
      unfold ru32
      rw [if_pos (by omega)]
    have hm1 : readU32 true buf 0 ≠ 0x41444620 := by
      rw [hm]
      decide
    have hr4 : ru32 false buf 4 = .ok (readU32 false buf 4) := by
      unfold ru32
      rw [if_pos (by omega)]
    unfold gsrcParse adfParse parseHeader
    rw [hr]
    simp only [exceptOkBind, if_neg hm1, if_pos hm, exceptPure]
    rw [hr4]
    simp only [exceptOkBind, if_neg hv4, if_neg hv3, if_neg hv2, exceptErrBind]
  · intro st hok hinst
    unfold gsrcParse
    rw [hok]
    simp only [exceptOkBind, hinst]

/-- Buffer with an unknown magic value. -/
def C5bufA : List Nat := [1, 2, 3, 4]

/-- Buffer with a good little-endian magic and version 5. -/
def C5bufB : List Nat := [32, 70, 68, 65, 5, 0, 0, 0]

/-- Version 2 buffer declaring zero instances. -/
def C5bufC : List Nat :=
  [32, 70, 68, 65, 2, 0, 0, 0, 0, 0, 0, 0, 0, 0, 0, 0, 0, 0, 0, 0, 0, 0, 0, 0]

/-- Parsed envelope of C5bufC. -/
def C5stC : AdfState :=
  ⟨true, ⟨0x41444620, 2, 0, 0, 0, 0, 0, 0, 0, 0, 0, []⟩, [], []⟩

/-- Claim C5, witness: the three typed-error clauses of the amended
theorem applied at concrete buffers. -/
theorem C5_witness :
    gsrcParse C5bufA = .error PErr.badMagic ∧
    gsrcParse C5bufB = .error PErr.unsupportedVersion ∧
    gsrcParse C5bufC = .error PErr.noInstance :=
  ⟨(C5_error_taxonomy C5bufA).1 (by decide) (by decide) (by decide),
   (C5_error_taxonomy C5bufB).2.1 (by decide) (by decide) (by decide) (by decide) (by decide),
   (C5_error_taxonomy C5bufC).2.2.2 C5stC (by decide) (by decide)⟩

/-! ## Stable sorting and exact fractions

Array.prototype.sort with a numeric comparator is stable (ES2019)
and orders ascending by the comparator key; it is modelled by a
stable insertion sort parameterized by a strict Bool order: an
element is inserted after exactly those earlier elements that are
strictly smaller, so equal keys keep their incoming order. -/

def stableInsert {α : Type} (lt : α → α → Bool) (x : α) : List α → List α
  | [] => [x]
  | b :: bs => if lt b x then b :: stableInsert lt x bs else x :: b :: bs

def stableSort {α : Type} (lt : α → α → Bool) : List α → List α
  | [] => []
  | x :: xs => stableInsert lt x (stableSort lt xs)

theorem stableInsert_perm {α : Type} (lt : α → α → Bool) (x : α) (l : List α) :
    List.Perm (stableInsert lt x l) (x :: l) := by
  induction l with
  | nil => simp [stableInsert]
  | cons b bs ih =>
    unfold stableInsert
    by_cases h : lt b x = true
    · rw [if_pos h]
      exact (List.Perm.cons b ih).trans (List.Perm.swap x b bs)
    · rw [if_neg h]

theorem stableSort_perm {α : Type} (lt : α → α → Bool) (l : List α) :
    List.Perm (stableSort lt l) l := by
  induction l with
  | nil => simp [stableSort]
  | cons x xs ih =>
    unfold stableSort
    exact (stableInsert_perm lt x _).trans (List.Perm.cons x ih)

theorem stableSort_mem {α : Type} (lt : α → α → Bool) (l : List α) (a : α) :
    a ∈ stableSort lt l ↔ a ∈ l :=
  (stableSort_perm lt l).mem_iff

theorem stableSort_nodup {α : Type} (lt : α → α → Bool) (l : List α)
    (h : l.Nodup) : (stableSort lt l).Nodup :=
  ((stableSort_perm lt l).nodup_iff).mpr h

theorem stableSort_length {α : Type} (lt : α → α → Bool) (l : List α) :
    (stableSort lt l).length = l.length :=
  (stableSort_perm lt l).length_eq

theorem stableInsert_sorted {α : Type} (lt : α → α → Bool)
    (htr : ∀ a b c, lt a b = false → lt b c = false → lt a c = false)
    (hasym : ∀ a b, lt a b = true → lt b a = false)
    (x : α) (l : List α) (h : List.Pairwise (fun a b => lt b a = false) l) :
    List.Pairwise (fun a b => lt b a = false) (stableInsert lt x l) := by
  induction l with
  | nil => simp [stableInsert]
  | cons b bs ih =>
    unfold stableInsert
    rcases List.pairwise_cons.mp h with ⟨hb, hbs⟩
    by_cases hlt : lt b x = true
    · rw [if_pos hlt]
      refine List.pairwise_cons.mpr ⟨?_, ih hbs⟩
      intro a ha
      rcases List.mem_cons.mp ((stableInsert_perm lt x bs).mem_iff.mp ha) with rfl | ha2
      · exact hasym b a hlt
      · exact hb a ha2
    · rw [if_neg hlt]
      refine List.pairwise_cons.mpr ⟨?_, h⟩
      intro a ha
      rcases ha with _ | ha2
      · simpa using hlt
      · rename_i ha3
        exact htr a b x (hb a ha3) (by simpa using hlt)

/-- Derived sortedness for the full sort. -/
theorem stableSort_sorted {α : Type} (lt : α → α → Bool)
    (htr : ∀ a b c, lt a b = false → lt b c = false → lt a c = false)
    (hasym : ∀ a b, lt a b = true → lt b a = false) (l : List α) :
    List.Pairwise (fun a b => lt b a = false) (stableSort lt l) := by
  induction l with
  | nil => simp [stableSort]
  | cons x xs ih =>
    unfold stableSort
    exact stableInsert_sorted lt htr hasym x _ ih

/-- Exact value of the floating quotient sum / count: a numerator
and a positive denominator. -/
abbrev Frac := Int × Int

/-- Strict comparison of fractions by cross multiplication (valid
because every denominator built below is positive). -/
def fracLt (x y : Frac) : Bool := decide (x.1 * y.2 < y.1 * x.2)

/-- Equality of fractions as rational numbers. -/
def fracEqv (x y : Frac) : Prop := x.1 * y.2 = y.1 * x.2

instance fracEqvDec (x y : Frac) : Decidable (fracEqv x y) :=
  inferInstanceAs (Decidable (x.1 * y.2 = y.1 * x.2))

/-! ## Layout engine (layoutNodes of the flow converter)

The embedding follows the source phase by phase; every phase is a
separate definition so that the claims about intermediate states
(layer assignment, layer splitting, barycenters) can be stated
directly. -/

/-- Pointwise update of a function, the embedding of an array or map
store into typed-array state. -/
def updF {β : Type} (f : Nat → β) (i : Nat) (v : β) : Nat → β :=
  fun j => if j = i then v else f j

/-- Horizontal gap between layers. -/
def LAYER_GAP_X : Int := 360

/-- Vertical gap inside a layer. -/
def LAYER_GAP_Y : Int := 140

/-- Width used for the orphan row. -/
def NODE_W : Int := 300

/-- Maximum number of nodes in a layer before splitting. -/
def MAX_PER_LAYER : Nat := 4

/-- Width of a variable grid cell. -/
def VAR_CELL_W : Int := 240

/-- Height of a variable grid cell. -/
def VAR_CELL_H : Int := 100

/-- Number of columns of the variable grid. -/
def VAR_COLS : Nat := 6

/-- Vertical gap between the functional graph and the variable
zone. -/
def VAR_ZONE_GAP : Int := 160

/-- Flow connections of the input. -/
def flowEdgesOf (conns : List GSConnection) : List GSConnection :=
  conns.filter (fun c => c.connectionType == ConnKind.flow)

/-- Variable connections of the input. -/
def varEdgesOf (conns : List GSConnection) : List GSConnection :=
  conns.filter (fun c => c.connectionType == ConnKind.varc)

/-- Child adjacency over flow edges (per-node push loop). -/
def childrenMap (flowEdges : List GSConnection) : Nat → List Nat :=
  flowEdges.foldl (fun f e => updF f e.sourceNodeIndex (f e.sourceNodeIndex ++ [e.targetNodeIndex]))
    (fun _ => [])

/-- Parent adjacency over flow edges. -/
def parentsMap (flowEdges : List GSConnection) : Nat → List Nat :=
  flowEdges.foldl (fun f e => updF f e.targetNodeIndex (f e.targetNodeIndex ++ [e.sourceNodeIndex]))
    (fun _ => [])

/-- Set.add of JavaScript: append if new, keeping insertion order. -/
def setAdd (l : List Nat) (x : Nat) : List Nat := if x ∈ l then l else l ++ [x]

/-- Variable-producing nodes: sources of variable edges, in first
occurrence order. -/
def varNodesOf (varEdges : List GSConnection) : List Nat :=
  varEdges.foldl (fun s e => setAdd s e.sourceNodeIndex) []

/-- Functional nodes: all indices not in the variable set, in
ascending order (the source iterates indices 0..nodeCount-1). -/
def funcNodesOf (nodeCount : Nat) (varNodes : List Nat) : List Nat :=
  (List.range nodeCount).filter (fun i => !(varNodes.contains i))

/-- Functional in-degrees: for each functional node, the number of
its parent list entries that are functional (the source counts them
with a per-node increment loop over a zero Int32Array; nodes outside
the functional set keep the initial zero). -/
def initFuncInDeg (funcNodes : List Nat) (parentsF : Nat → List Nat) : Nat → Int :=
  fun n => if n ∈ funcNodes then ((parentsF n).countP (fun p => p ∈ funcNodes)) else 0

/-- Seed queue of the Kahn traversal: functional nodes of functional
in-degree zero, in functional order (their layer is set to the value
0 it already has). -/
def kahnSeeds (funcNodes : List Nat) (deg : Nat → Int) : List Nat :=
  funcNodes.filter (fun n => deg n == 0)

/-- Body of the child loop of one Kahn step: for a functional child,
raise its layer to layer(cur) + 1 if larger, decrement its in-degree
and enqueue it when the in-degree reaches exactly zero. -/
def kahnStepChild (funcNodes : List Nat) (cur : Nat) :
    (Nat → Int) × (Nat → Nat) × List Nat → Nat → (Nat → Int) × (Nat → Nat) × List Nat
  | (deg, layer, pushes), child =>
    if child ∈ funcNodes then
      let newLayer := layer cur + 1
      let layer2 := if layer child < newLayer then updF layer child newLayer else layer
      let deg2 := updF deg child (deg child - 1)
      let pushes2 := if deg2 child = 0 then pushes ++ [child] else pushes
      (deg2, layer2, pushes2)
    else (deg, layer, pushes)

/-- Queue loop of the Kahn traversal.  The source iterates a head
pointer over a growing array; here the not-yet-processed suffix is
the pending list and the processed prefix the acc list.  The fuel
argument bounds the number of dequeues; every node enters the queue
at most once (an in-degree strictly decreases and is enqueued only
when it reaches exactly zero), so the nodeCount fuel supplied below
is never exhausted and the zero-fuel branch is unreachable. -/
def kahnLoop (childrenF : Nat → List Nat) (funcNodes : List Nat) :
    Nat → List Nat → (Nat → Int) → (Nat → Nat) → List Nat → List Nat × (Nat → Nat)
  | _, [], _, layer, acc => (acc, layer)
  | 0, _ :: _, _, layer, acc => (acc, layer)
  | fuel + 1, cur :: rest, deg, layer, acc =>
    let st := (childrenF cur).foldl (kahnStepChild funcNodes cur) (deg, layer, [])
    kahnLoop childrenF funcNodes fuel (rest ++ st.2.2) st.1 st.2.1 (acc ++ [cur])

/-- Layer assignment: Kahn traversal from the seeds over a zero
layer array.  Returns the processed order (the queue) and the layer
array. -/
def kahnRun (nodeCount : Nat) (childrenF : Nat → List Nat) (funcNodes : List Nat)
    (deg0 : Nat → Int) : List Nat × (Nat → Nat) :=
  kahnLoop childrenF funcNodes nodeCount (kahnSeeds funcNodes deg0) deg0 (fun _ => 0) []

/-- Minimum layer of the compaction step: max over functional
parents of their layer plus one, zero when parentless. -/
def minLayerOf (parentsF : Nat → List Nat) (funcNodes : List Nat) (ly : Nat → Nat)
    (n : Nat) : Nat :=
  (parentsF n).foldl (fun m p => if p ∈ funcNodes ∧ m < ly p + 1 then ly p + 1 else m) 0

/-- Compaction: reset each queued node, in topological order, to its
minimum layer. -/
def compactLayers (parentsF : Nat → List Nat) (funcNodes : List Nat) (queue : List Nat)
    (ly0 : Nat → Nat) : Nat → Nat :=
  queue.foldl (fun ly n => updF ly n (minLayerOf parentsF funcNodes ly n)) ly0

/-- The layering phase of layoutNodes on a connection list: build
adjacency, traverse, compact.  Returns the processed queue and the
final layer assignment. -/
def layerPhase (nodeCount : Nat) (conns : List GSConnection) : List Nat × (Nat → Nat) :=
  let flowEdges := flowEdgesOf conns
  let childrenF := childrenMap flowEdges
  let parentsF := parentsMap flowEdges
  let funcNodes := funcNodesOf nodeCount (varNodesOf (varEdgesOf conns))
  let deg0 := initFuncInDeg funcNodes parentsF
  let (queue, layerK) := kahnRun nodeCount childrenF funcNodes deg0
  (queue, compactLayers parentsF funcNodes queue layerK)

/-- Map.set semantics on a grouping map from layer to node list. -/
def mapSetG (m : List (Nat × List Nat)) (k : Nat) (v : List Nat) : List (Nat × List Nat) :=
  if (m.lookup k).isSome then m.map (fun p => if p.1 = k then (k, v) else p) else m ++ [(k, v)]

/-- Grouping of the functional nodes by layer, in functional-node
order, the Map insertion order of the source. -/
def groupByLayer (funcNodes : List Nat) (ly : Nat → Nat) : List (Nat × List Nat) :=
  funcNodes.foldl (fun groups n =>
    match groups.lookup (ly n) with
    | some g => mapSetG groups (ly n) (g ++ [n])
    | none => groups ++ [(ly n, [n])]) []

/-- Maximum layer over the functional nodes (computed in the same
loop in the source). -/
def maxLayerOf (funcNodes : List Nat) (ly : Nat → Nat) : Nat :=
  funcNodes.foldl (fun m n => max m (ly n)) 0

/-- Chunks of at most MAX_PER_LAYER = 4 elements, in order. -/
def chunks4 : List Nat → List (List Nat)
  | [] => []
  | a :: b :: c :: d :: e :: rest => [a, b, c, d] :: chunks4 (e :: rest)
  | l => [l]

/-- Processing of one (original) layer key of the split step: look
the group up under its original key; when it exceeds MAX_PER_LAYER,
rebuild the whole map, re-keying greater layers extraLayers to the
right and replacing the key with one entry per chunk; the running
maximum layer grows by extraLayers.  The source also writes the new
layer values back into the layer array; nothing after the split
reads that array, so the embedding drops the write. -/
def splitOne : List (Nat × List Nat) × Nat → Nat → List (Nat × List Nat) × Nat
  | (groups, maxLayer), l =>
    match groups.lookup l with
    | none => (groups, maxLayer)
    | some nodes =>
      if nodes.length ≤ MAX_PER_LAYER then (groups, maxLayer)
      else
        let chunks := chunks4 nodes
        let extraLayers := chunks.length - 1
        if extraLayers = 0 then (groups, maxLayer)
        else
          let ng := groups.foldl (fun ng p =>
            if l < p.1 then mapSetG ng (p.1 + extraLayers) p.2
            else if p.1 = l then
              chunks.enum.foldl (fun ng2 q => mapSetG ng2 (l + q.1) q.2) ng
            else mapSetG ng p.1 p.2) []
          (ng, maxLayer + extraLayers)

/-- Original layer keys, processed right to left (descending). -/
def sortedLayersDesc (groups : List (Nat × List Nat)) : List Nat :=
  stableSort (fun a b => decide (b < a)) (groups.map Prod.fst)

/-- Layer split step over all original keys. -/
def splitLayers (groups : List (Nat × List Nat)) (maxLayer : Nat) :
    List (Nat × List Nat) × Nat :=
  (sortedLayersDesc groups).foldl splitOne (groups, maxLayer)

/-! ## Barycenter ordering and placement -/

/-- Rank map update after (re)sorting a layer: position of each node
in its layer list. -/
def setRanks (ord : Nat → Nat) (nodes : List Nat) : Nat → Nat :=
  nodes.enum.foldl (fun o q => updF o q.2 q.1) ord

/-- Initial per-layer order: each layer list sorted by ascending
node index (in place, as the source sort mutates the stored array),
ranks assigned from the sorted lists. -/
def initOrderPhase (groups : List (Nat × List Nat)) :
    List (Nat × List Nat) × (Nat → Nat) :=
  let groups2 := groups.map (fun p => (p.1, stableSort (fun a b => decide (a < b)) p.2))
  let ord := groups2.foldl (fun o p => setRanks o p.2) (fun _ => 0)
  (groups2, ord)

/-- Barycenter of one node: the running sum and count over its
adjacency list restricted to functional nodes, as the exact value of
the floating quotient; a node without functional neighbours keeps
its current rank (missing map entries read as rank 0, as with the
nullish fallback of the source). -/
def baryOf (adj : List Nat) (funcNodes : List Nat) (ord : Nat → Nat) (n : Nat) : Frac :=
  let sc := adj.foldl
    (fun (sc : Int × Int) a => if a ∈ funcNodes then (sc.1 + (ord a : Int), sc.2 + 1) else sc)
    (0, 0)
  if 0 < sc.2 then sc else ((ord n : Int), 1)

/-- One layer of one barycenter pass: layers holding at most one
node are skipped; otherwise the layer list is stably re-sorted by
barycenter (parents as the neighbourhood on forward passes, children
on backward ones) and the ranks updated. -/
def baryLayer (parentsF childrenF : Nat → List Nat) (funcNodes : List Nat) (forward : Bool)
    (st : List (Nat × List Nat) × (Nat → Nat)) (l : Nat) :
    List (Nat × List Nat) × (Nat → Nat) :=
  let (groups, ord) := st
  match groups.lookup l with
  | none => st
  | some nodes =>
    if nodes.length ≤ 1 then st
    else
      let bary := fun n => baryOf (if forward then parentsF n else childrenF n) funcNodes ord n
      let nodes2 := stableSort (fun a b => fracLt (bary a) (bary b)) nodes
      (mapSetG groups l nodes2, setRanks ord nodes2)

/-- Layer sequence of one pass: 1..maxLayer forward, maxLayer-1..0
backward. -/
def passLayers (forward : Bool) (maxLayer : Nat) : List Nat :=
  if forward then List.range' 1 maxLayer else (List.range maxLayer).reverse

/-- The eight alternating barycenter passes. -/
def baryPasses (parentsF childrenF : Nat → List Nat) (funcNodes : List Nat) (maxLayer : Nat)
    (st0 : List (Nat × List Nat) × (Nat → Nat)) :
    List (Nat × List Nat) × (Nat → Nat) :=
  (List.range 8).foldl (fun st pass =>
    (passLayers (pass % 2 == 0) maxLayer).foldl
      (baryLayer parentsF childrenF funcNodes (pass % 2 == 0)) st) st0

/-- Position maps from node index to coordinates, with Map.set
semantics. -/
abbrev PosMap := List (Nat × Int × Int)

/-- Map.set on a position map. -/
def setPos (m : PosMap) (k : Nat) (v : Int × Int) : PosMap :=
  if (m.lookup k).isSome then m.map (fun p => if p.1 = k then (k, v) else p) else m ++ [(k, v)]

/-- Functional placement: for each layer, sort its list by rank and
place member i at x = layer * LAYER_GAP_X,
y = -(k * LAYER_GAP_Y) / 2 + i * LAYER_GAP_Y. -/
def placeFunc (st : List (Nat × List Nat) × (Nat → Nat)) : PosMap :=
  let (groups, ord) := st
  groups.foldl (fun pos p =>
    let nodes2 := stableSort (fun a b => decide (ord a < ord b)) p.2
    let x : Int := (p.1 : Int) * LAYER_GAP_X
    let startY : Int := -((nodes2.length : Int) * LAYER_GAP_Y) / 2
    nodes2.enum.foldl (fun pos q => setPos pos q.2 (x, startY + (q.1 : Int) * LAYER_GAP_Y)) pos)
    []

/-- Greatest y of the placed functional nodes (0 when none). -/
def globalBottomY (pos : PosMap) : Int :=
  match pos.map (fun p => p.2.2) with
  | [] => 0
  | y :: ys => ys.foldl max y

/-- Least x of the placed functional nodes (0 when none). -/
def globalMinX (pos : PosMap) : Int :=
  match pos.map (fun p => p.2.1) with
  | [] => 0
  | x :: xs => xs.foldl min x

/-- Combined variable node list: sources of variable edges sorted
ascending, followed by variable nodes not among those sources sorted
ascending.  The connected set is rebuilt from the same edge list, so
the second part is always empty; the embedding keeps both parts as
the source does. -/
def allVarNodesOf (varEdges : List GSConnection) (varNodes : List Nat) : List Nat :=
  let varConnected := varEdges.foldl (fun s e => setAdd s e.sourceNodeIndex) []
  stableSort (fun a b => decide (a < b)) varConnected ++
    (stableSort (fun a b => decide (a < b)) varNodes).filter (fun vn => !(varConnected.contains vn))

/-- Variable grid placement below the functional graph. -/
def placeVars (pos : PosMap) (allVar : List Nat) (varBaseX varBaseY : Int) : PosMap :=
  allVar.enum.foldl (fun pos q =>
    setPos pos q.2
      (varBaseX + ((q.1 % VAR_COLS : Nat) : Int) * VAR_CELL_W,
       varBaseY + ((q.1 / VAR_COLS : Nat) : Int) * VAR_CELL_H)) pos

/-- Orphan row: any still unplaced index is placed on an extra row,
the running column counter advancing only when a node is placed. -/
def placeRemaining (pos : PosMap) (nodeCount : Nat) (minX remainingBaseY : Int) : PosMap :=
  ((List.range nodeCount).foldl (fun (st : PosMap × Nat) i =>
    if (st.1.lookup i).isSome then st
    else (setPos st.1 i (minX + (st.2 : Int) * NODE_W, remainingBaseY), st.2 + 1)) (pos, 0)).1

/-- Grouping phase: group the functional nodes of the layering by
layer and record the maximum layer. -/
def groupPhase (nodeCount : Nat) (conns : List GSConnection) :
    List (Nat × List Nat) × Nat :=
  let funcNodes := funcNodesOf nodeCount (varNodesOf (varEdgesOf conns))
  let ly := (layerPhase nodeCount conns).2
  (groupByLayer funcNodes ly, maxLayerOf funcNodes ly)

/-- Ordering phase: layer split, initial order, barycenter passes. -/
def orderPhase (nodeCount : Nat) (conns : List GSConnection) :
    List (Nat × List Nat) × (Nat → Nat) :=
  let flowEdges := flowEdgesOf conns
  let funcNodes := funcNodesOf nodeCount (varNodesOf (varEdgesOf conns))
  let (groups0, maxL0) := groupPhase nodeCount conns
  let (groups1, maxL1) := splitLayers groups0 maxL0
  baryPasses (parentsMap flowEdges) (childrenMap flowEdges) funcNodes maxL1
    (initOrderPhase groups1)

/-- Core of layoutNodes, after the adjacency arrays have been built
successfully. -/
def layoutNodesCore (nodeCount : Nat) (conns : List GSConnection) : PosMap :=
  let varEdges := varEdgesOf conns
  let varNodes := varNodesOf varEdges
  let posF := placeFunc (orderPhase nodeCount conns)
  let bottomY := globalBottomY posF
  let minX := globalMinX posF
  let varBaseY := bottomY + VAR_ZONE_GAP
  let allVar := allVarNodesOf varEdges varNodes
  let posV := placeVars posF allVar minX varBaseY
  let remainingBaseY := if 0 < allVar.length then
      varBaseY + (((allVar.length - 1) / VAR_COLS + 1 : Nat) : Int) * VAR_CELL_H + VAR_ZONE_GAP
    else varBaseY + VAR_ZONE_GAP
  placeRemaining posV nodeCount minX remainingBaseY

/-- layoutNodes of the source.  Building the adjacency arrays pushes
onto children[src] and parents[tgt]; when a flow edge endpoint is
outside 0..nodeCount-1 the indexed slot is undefined and the push
throws a TypeError, which none is the model of.  Variable edges only
pass through Set.add and never throw. -/
def layoutNodes (nodeCount : Nat) (conns : List GSConnection) : Option PosMap :=
  if (flowEdgesOf conns).all
      (fun e => decide (e.sourceNodeIndex < nodeCount) && decide (e.targetNodeIndex < nodeCount)) then
    some (layoutNodesCore nodeCount conns)
  else none

/-- Pin record of the flow converter (the display name string is
omitted with the other display annotations). -/
structure PinInfo where
  hash : Nat
  data : List GSData
deriving DecidableEq, Repr

/-- extractPins of the flow converter: the child DataSet whose name
hash matches the pin category provides one pin per child DataSet;
no match yields no pins. -/
def extractPins (ds : GSDataSet) (pinCategoryHash : Nat) : List PinInfo :=
  match ds.dataSets.find? (fun child => child.name == pinCategoryHash) with
  | none => []
  | some pinCategory => pinCategory.dataSets.map (fun pinDS => ⟨pinDS.name, pinDS.data⟩)

/-- extractParameters of the flow converter: the data entries of the
root DataSet. -/
def extractParameters (ds : GSDataSet) : List GSData := ds.data

/-! ## Claim C9: the barycenter formula -/

/-- Mean rank over all functional neighbours (with edge
multiplicity), written the way the amended claim reads; a node
without functional neighbours keeps its current rank. -/
def baryAllOf (adj : List Nat) (funcNodes : List Nat) (ord : Nat → Nat) (n : Nat) : Frac :=
  let fs := adj.filter (fun a => decide (a ∈ funcNodes))
  if fs.length = 0 then ((ord n : Int), 1)
  else ((fs.map (fun a => (ord a : Int))).sum, (fs.length : Int))

/-- Mean rank over the functional neighbours lying in one given
layer, the way the original claim reads. -/
def baryAdjacentOf (adj : List Nat) (funcNodes : List Nat) (ly : Nat → Nat)
    (targetLayer : Nat) (ord : Nat → Nat) (n : Nat) : Frac :=
  let fs := adj.filter (fun a => decide (a ∈ funcNodes) && decide (ly a = targetLayer))
  if fs.length = 0 then ((ord n : Int), 1)
  else ((fs.map (fun a => (ord a : Int))).sum, (fs.length : Int))

theorem baryOf_foldl (adj : List Nat) (funcNodes : List Nat) (ord : Nat → Nat)
    (s c : Int) :
    adj.foldl
      (fun (sc : Int × Int) a => if a ∈ funcNodes then (sc.1 + (ord a : Int), sc.2 + 1) else sc)
      (s, c) =
    (s + ((adj.filter (fun a => decide (a ∈ funcNodes))).map (fun a => (ord a : Int))).sum,
     c + ((adj.filter (fun a => decide (a ∈ funcNodes))).length : Int)) := by
  induction adj generalizing s c with
  | nil => simp
  | cons a rest ih =>
    by_cases ha : a ∈ funcNodes
    · rw [List.foldl_cons, if_pos ha, ih]
      simp [List.filter_cons, ha]
      constructor
      · ring
      · ring
    · rw [List.foldl_cons, if_neg ha, ih]
      simp [List.filter_cons, ha]

/-- Claim C9, amended.  In every pass the barycenter computed by the
source equals the mean rank of all functional neighbours of the node
(parents on forward passes, children on backward passes, counted
with edge multiplicity), with no restriction to the adjacent layer;
a node with no functional neighbours keeps its current rank. -/
theorem C9_barycenter_all_neighbours (adj : List Nat) (funcNodes : List Nat)
    (ord : Nat → Nat) (n : Nat) :
    baryOf adj funcNodes ord n = baryAllOf adj funcNodes ord n := by
  unfold baryOf baryAllOf
  rw [baryOf_foldl adj funcNodes ord 0 0]
  simp only [zero_add]
  by_cases h : (adj.filter (fun a => decide (a ∈ funcNodes))).length = 0
  · rw [h]
    simp
  · rw [if_pos (by exact_mod_cast Nat.pos_of_ne_zero h), if_neg h]

/-- Connection list of the C9 counterexample: sources 0 and 1, node
2 under 0, nodes 3 and 4 under 2, and an extra edge 1 to 3 whose
source stays in layer 0, two layers left of node 3. -/
def C9conns : List GSConnection :=
  [⟨0, 0, 2, 0, ConnKind.flow⟩, ⟨2, 0, 3, 0, ConnKind.flow⟩,
   ⟨1, 0, 3, 0, ConnKind.flow⟩, ⟨2, 0, 4, 0, ConnKind.flow⟩]

/-- Functional nodes of the C9 counterexample. -/
def C9funcNodes : List Nat := funcNodesOf 5 (varNodesOf (varEdgesOf C9conns))

/-- Rank state entering the first barycenter pass (the pass touches
layer 1 first, a singleton it skips, so this is also the state when
layer 2 is processed). -/
def C9initOrd : Nat → Nat :=
  (initOrderPhase (splitLayers (groupPhase 5 C9conns).1 (groupPhase 5 C9conns).2).1).2

/-- Claim C9, counterexample.  In the forward pass 0 of the run on
C9conns, the barycenter the source computes for node 3 of layer 2 is
1/2, the mean over both functional parents (node 2 of layer 1 with
rank 0 and node 1 of layer 0 with rank 1), while the mean over the
parents lying in the adjacent layer 1 alone would be 0: the claimed
adjacent-layer restriction does not exist in the code. -/
theorem C9_counterexample :
    (layerPhase 5 C9conns).2 1 = 0 ∧ (layerPhase 5 C9conns).2 3 = 2 ∧
    1 ∈ C9funcNodes ∧
    baryOf (parentsMap (flowEdgesOf C9conns) 3) C9funcNodes C9initOrd 3 = (1, 2) ∧
    baryAdjacentOf (parentsMap (flowEdgesOf C9conns) 3) C9funcNodes
      (layerPhase 5 C9conns).2 1 C9initOrd 3 = (0, 1) ∧
    ¬ fracEqv (1, 2) (0, 1) := by decide

/-! ## Claim C6: single node with empty root DataSet -/

/-- Precomputed hash of the literal input_pins. -/
def HASH_INPUT_PINS : Nat := hashString "input_pins"

/-- Node with an empty root DataSet. -/
def C6node : GSNode := ⟨0, 0, ⟨0, [], []⟩⟩

/-- Graph holding just that node and an empty global data record. -/
def C6graph : GSGraph := ⟨[C6node], ⟨0, 0, [], 0, false⟩⟩

/-- Claim C6, counterexample.  A single layer of one node is placed
at y = -(1 * LAYER_GAP_Y) / 2 = -70, not at (0, 0) as claimed. -/
theorem C6_counterexample :
    layoutNodes 1 [] = some [(0, 0, -70)] ∧ ((0, -70) : Int × Int) ≠ (0, 0) := by decide

/-- Claim C6, amended.  One node with an empty root DataSet decodes
to empty pin lists, empty parameters and no connections, and the
layout places it at (0, -70): the x coordinate is 0 and the y
coordinate is the single-layer midpoint offset -(1 * 140) / 2. -/
theorem C6_single_node :
    extractPins C6node.dataSet HASH_INPUT_PINS = [] ∧
    extractPins C6node.dataSet HASH_OUTPUT_PINS = [] ∧
    extractPins C6node.dataSet HASH_VARIABLE_PINS = [] ∧
    extractParameters C6node.dataSet = [] ∧
    extractConnections true C6graph = [] ∧
    layoutNodes C6graph.nodes.length (extractConnections true C6graph) =
      some [(0, 0, -70)] := by decide

/-! ## Claim C7: the layer split bound

Support lemmas about chunks and association list updates. -/

theorem chunks4_le4 (l : List Nat) : ∀ c ∈ chunks4 l, c.length ≤ 4 := by
  induction l using chunks4.induct with
  | case1 => simp [chunks4]
  | case2 a b c d e rest ih =>
    intro ch hch
    rw [chunks4] at hch
    rcases List.mem_cons.mp hch with rfl | h2
    · simp
    · exact ih ch h2
  | case3 l h1 h2 =>
    intro ch hch
    rcases l with _ | ⟨a, _ | ⟨b, _ | ⟨c, _ | ⟨d, _ | ⟨e, rest⟩⟩⟩⟩⟩
    · exact absurd rfl h1
    · unfold chunks4 at hch
      rcases List.mem_cons.mp hch with rfl | h
      · simp
      · simp at h
    · unfold chunks4 at hch
      rcases List.mem_cons.mp hch with rfl | h
      · simp
      · simp at h
    · unfold chunks4 at hch
      rcases List.mem_cons.mp hch with rfl | h
      · simp
      · simp at h
    · unfold chunks4 at hch
      rcases List.mem_cons.mp hch with rfl | h
      · simp
      · simp at h
    · exact False.elim (h2 a b c d e rest rfl)

theorem chunks4_join (l : List Nat) : (chunks4 l).flatMap id = l := by
  induction l using chunks4.induct with
  | case1 => simp [chunks4]
  | case2 a b c d e rest ih =>
    rw [chunks4]
    simp only [List.flatMap_cons, id]
    rw [ih]
    rfl
  | case3 l h1 h2 =>
    rcases l with _ | ⟨a, _ | ⟨b, _ | ⟨c, _ | ⟨d, _ | ⟨e, rest⟩⟩⟩⟩⟩
    · exact False.elim (h1 rfl)
    · rfl
    · rfl
    · rfl
    · rfl
    · exact False.elim (h2 a b c d e rest rfl)

theorem chunks4_len2 (l : List Nat) (h : 4 < l.length) : 2 ≤ (chunks4 l).length := by
  rcases l with _ | ⟨a, _ | ⟨b, _ | ⟨c, _ | ⟨d, _ | ⟨e, rest⟩⟩⟩⟩⟩ <;> simp_all
  rw [chunks4]
  have : chunks4 (e :: rest) ≠ [] := by
    rcases rest with _ | ⟨f, _ | ⟨g, _ | ⟨h, _ | ⟨i, rest2⟩⟩⟩⟩ <;> simp [chunks4]
  simp only [List.length_cons]
  have := List.length_pos.mpr this
  omega

/-! Association list support lemmas (Map.set semantics). -/

theorem lookup_mem {β : Type} (m : List (Nat × β)) (k : Nat) (v : β)
    (h : m.lookup k = some v) : (k, v) ∈ m := by
  induction m with
  | nil => simp [List.lookup] at h
  | cons p t ih =>
    obtain ⟨a, b⟩ := p
    by_cases hp : k = a
    · subst hp
      rw [lookup_cons_key] at h
      obtain rfl := Option.some.inj h
      exact List.mem_cons_self _ _
    · rw [lookup_cons_ne a k b t hp] at h
      exact List.mem_cons_of_mem _ (ih h)

theorem mem_lookup_of_nodupkeys {β : Type} (m : List (Nat × β)) (k : Nat) (v : β)
    (hn : (m.map Prod.fst).Nodup) (h : (k, v) ∈ m) : m.lookup k = some v := by
  induction m with
  | nil => simp at h
  | cons p t ih =>
    obtain ⟨a, b⟩ := p
    rw [List.map_cons, List.nodup_cons] at hn
    rcases List.mem_cons.mp h with heq | hmem
    · obtain ⟨rfl, rfl⟩ := Prod.mk.injEq k v a b ▸ heq
      exact lookup_cons_key _ _ t
    · have hka : k ≠ a := by
        intro rfl
        exact hn.1 (List.mem_map.mpr ⟨(k, v), hmem, rfl⟩)
      rw [lookup_cons_ne a k b t hka]
      exact ih hn.2 hmem

theorem lookup_isSome_iff_mem_keys {β : Type} (m : List (Nat × β)) (k : Nat) :
    (m.lookup k).isSome ↔ k ∈ m.map Prod.fst := by
  induction m with
  | nil => simp [List.lookup]
  | cons p t ih =>
    obtain ⟨a, b⟩ := p
    by_cases hp : k = a
    · subst hp
      rw [lookup_cons_key]
      simp
    · rw [lookup_cons_ne a k b t hp]
      simp only [List.map_cons, List.mem_cons]
      rw [ih]
      constructor
      · intro h
        exact Or.inr h
      · intro h
        rcases h with h | h
        · exact absurd h hp
        · exact h

theorem mapSetG_of_absent (m : List (Nat × List Nat)) (k : Nat) (v : List Nat)
    (h : k ∉ m.map Prod.fst) : mapSetG m k v = m ++ [(k, v)] := by
  unfold mapSetG
  rw [if_neg]
  intro hsome
  exact h ((lookup_isSome_iff_mem_keys m k).mp hsome)

/-- Folding single Map.set inserts whose keys are fresh and pairwise
distinct appends the items in order. -/
theorem fold_mapSetG_fresh (items : List (Nat × List Nat)) :
    ∀ (ng : List (Nat × List Nat)),
    (items.map Prod.fst).Nodup → (∀ k ∈ items.map Prod.fst, k ∉ ng.map Prod.fst) →
    items.foldl (fun acc p => mapSetG acc p.1 p.2) ng = ng ++ items := by
  induction items with
  | nil => simp
  | cons p t ih =>
    intro ng hnd hfresh
    obtain ⟨a, b⟩ := p
    rw [List.map_cons, List.nodup_cons] at hnd
    rw [List.foldl_cons]
    have hab : mapSetG ng a b = ng ++ [(a, b)] :=
      mapSetG_of_absent ng a b (hfresh a (by simp))
    rw [hab, ih (ng ++ [(a, b)]) hnd.2]
    · simp
    · intro k hk
      rw [List.map_append]
      intro hmem
      rcases List.mem_append.mp hmem with h1 | h1
      · exact hfresh k (List.mem_cons_of_mem _ hk) h1
      · simp at h1
        subst h1
        exact hnd.1 hk

/-- Entries the split rebuild inserts for one old entry: greater
keys move right by extraLayers, the split key becomes one entry per
chunk, smaller keys stay. -/
def splitTargets (l e : Nat) (chunks : List (List Nat)) (p : Nat × List Nat) :
    List (Nat × List Nat) :=
  if l < p.1 then [(p.1 + e, p.2)]
  else if p.1 = l then chunks.enum.map (fun q => (l + q.1, q.2))
  else [(p.1, p.2)]

theorem rebuild_eq (l e : Nat) (chunks : List (List Nat)) (groups : List (Nat × List Nat)) :
    ∀ init, groups.foldl (fun ng p =>
      if l < p.1 then mapSetG ng (p.1 + e) p.2
      else if p.1 = l then chunks.enum.foldl (fun ng2 q => mapSetG ng2 (l + q.1) q.2) ng
      else mapSetG ng p.1 p.2) init =
    (groups.flatMap (splitTargets l e chunks)).foldl (fun acc p => mapSetG acc p.1 p.2) init := by
  induction groups with
  | nil =>
    intro init
    rfl
  | cons p t ih =>
    intro init
    rw [List.foldl_cons, List.flatMap_cons, List.foldl_append, ih]
    congr 1
    unfold splitTargets
    by_cases h1 : l < p.1
    · rw [if_pos h1, if_pos h1]
      rfl
    · rw [if_neg h1, if_neg h1]
      by_cases h2 : p.1 = l
      · rw [if_pos h2, if_pos h2, List.foldl_map]
      · rw [if_neg h2, if_neg h2]
        rfl

theorem flatMap_congr_mem {α β : Type} (l : List α) (f g : α → List β)
    (h : ∀ a ∈ l, f a = g a) : l.flatMap f = l.flatMap g := by
  induction l with
  | nil => rfl
  | cons x t ih =>
    rw [List.flatMap_cons, List.flatMap_cons, h x (List.mem_cons_self x t),
      ih (fun a ha => h a (List.mem_cons_of_mem x ha))]

theorem splitTargets_key_bound (l e : Nat) (chunks : List (List Nat)) (p : Nat × List Nat)
    (x : Nat) (hlen : chunks.length = e + 1)
    (hx : x ∈ (splitTargets l e chunks p).map Prod.fst) :
    (l < p.1 ∧ x = p.1 + e) ∨ (p.1 = l ∧ l ≤ x ∧ x ≤ l + e) ∨ (p.1 < l ∧ x = p.1) := by
  unfold splitTargets at hx
  by_cases h1 : l < p.1
  · rw [if_pos h1] at hx
    simp at hx
    exact Or.inl ⟨h1, hx⟩
  · by_cases h2 : p.1 = l
    · rw [if_neg h1, if_pos h2] at hx
      rw [List.map_map] at hx
      obtain ⟨q, hq, hxq⟩ := List.mem_map.mp hx
      obtain ⟨i, c⟩ := q
      have hi : i < chunks.length := (List.mem_enum hq).1
      refine Or.inr (Or.inl ⟨h2, ?_, ?_⟩)
      · rw [← hxq]
        simp
      · rw [← hxq]
        simp only [Function.comp]
        omega
    · rw [if_neg h1, if_neg h2] at hx
      simp at hx
      exact Or.inr (Or.inr ⟨by omega, hx⟩)

theorem splitTargets_keys_nodup (l e : Nat) (chunks : List (List Nat))
    (groups : List (Nat × List Nat)) (hnd : (groups.map Prod.fst).Nodup)
    (hlen : chunks.length = e + 1) :
    ((groups.flatMap (splitTargets l e chunks)).map Prod.fst).Nodup := by
  rw [List.map_flatMap]
  rw [List.nodup_flatMap]
  constructor
  · intro p hp
    unfold splitTargets
    by_cases h1 : l < p.1
    · simp [h1]
    · by_cases h2 : p.1 = l
      · rw [if_neg h1, if_pos h2]
        rw [List.map_map]
        have hmap : (Prod.fst ∘ fun q : Nat × List Nat => (l + q.1, q.2)) =
            ((fun i => l + i) ∘ Prod.fst) := rfl
        rw [hmap, ← List.map_map, List.enum_map_fst]
        exact (List.nodup_range _).map (fun a b hab => by omega)
      · simp [h1, h2]
  · have hpw : groups.Pairwise (fun p q => p.1 ≠ q.1) := List.pairwise_map.mp hnd
    refine hpw.imp ?_
    intro p q hpq
    intro x hx1 hx2
    have b1 := splitTargets_key_bound l e chunks p x hlen hx1
    have b2 := splitTargets_key_bound l e chunks q x hlen hx2
    rcases b1 with ⟨u1, v1⟩ | ⟨u1, v1⟩ | ⟨u1, v1⟩ <;>
      rcases b2 with ⟨u2, v2⟩ | ⟨u2, v2⟩ | ⟨u2, v2⟩ <;> omega

theorem splitOne_none (groups : List (Nat × List Nat)) (maxLayer l : Nat)
    (h : groups.lookup l = none) : splitOne (groups, maxLayer) l = (groups, maxLayer) := by
  simp only [splitOne, h]

theorem splitOne_small (groups : List (Nat × List Nat)) (maxLayer l : Nat) (nodes : List Nat)
    (h : groups.lookup l = some nodes) (hle : nodes.length ≤ MAX_PER_LAYER) :
    splitOne (groups, maxLayer) l = (groups, maxLayer) := by
  simp only [splitOne, h, if_pos hle]

theorem splitOne_big (groups : List (Nat × List Nat)) (maxLayer l : Nat) (nodes : List Nat)
    (h : groups.lookup l = some nodes) (hle : ¬(nodes.length ≤ MAX_PER_LAYER))
    (hne : ¬((chunks4 nodes).length - 1 = 0)) :
    splitOne (groups, maxLayer) l =
      (groups.foldl (fun ng p =>
        if l < p.1 then mapSetG ng (p.1 + ((chunks4 nodes).length - 1)) p.2
        else if p.1 = l then
          (chunks4 nodes).enum.foldl (fun ng2 q => mapSetG ng2 (l + q.1) q.2) ng
        else mapSetG ng p.1 p.2) [],
       maxLayer + ((chunks4 nodes).length - 1)) := by
  simp only [splitOne, h, if_neg hle, if_neg hne]

theorem splitOne_spec (groups : List (Nat × List Nat)) (maxLayer l : Nat) (rest : List Nat)
    (hnd : (groups.map Prod.fst).Nodup)
    (hrest : ∀ r ∈ rest, r < l)
    (hbound : ∀ p ∈ groups, p.1 ∉ (l :: rest) → p.2.length ≤ MAX_PER_LAYER) :
    ((splitOne (groups, maxLayer) l).1.map Prod.fst).Nodup ∧
    (splitOne (groups, maxLayer) l).1.flatMap Prod.snd = groups.flatMap Prod.snd ∧
    (∀ p ∈ (splitOne (groups, maxLayer) l).1, p.1 ∉ rest → p.2.length ≤ MAX_PER_LAYER) := by
  have hsame : ∀ p ∈ groups, p.1 ∉ rest → p.1 ≠ l → p.2.length ≤ MAX_PER_LAYER := by
    intro p hp hprest hpl
    apply hbound p hp
    intro hmem
    rcases List.mem_cons.mp hmem with heq | hr
    · exact hpl heq
    · exact hprest hr
  cases hl : groups.lookup l with
  | none =>
    rw [splitOne_none groups maxLayer l hl]
    refine ⟨hnd, rfl, ?_⟩
    intro p hp hprest
    apply hsame p hp hprest
    intro heq
    have hm : groups.lookup p.1 = some p.2 := mem_lookup_of_nodupkeys groups p.1 p.2 hnd hp
    rw [heq, hl] at hm
    cases hm
  | some nodes =>
    by_cases hle : nodes.length ≤ MAX_PER_LAYER
    · rw [splitOne_small groups maxLayer l nodes hl hle]
      refine ⟨hnd, rfl, ?_⟩
      intro p hp hprest
      by_cases hpl : p.1 = l
      · have hm : groups.lookup p.1 = some p.2 := mem_lookup_of_nodupkeys groups p.1 p.2 hnd hp
        rw [hpl, hl] at hm
        obtain rfl := Option.some.inj hm
        exact hle
      · exact hsame p hp hprest hpl
    · have hlen4 : 4 < nodes.length := by
        unfold MAX_PER_LAYER at hle
        omega
      have hch2 : 2 ≤ (chunks4 nodes).length := chunks4_len2 nodes hlen4
      have hne : ¬((chunks4 nodes).length - 1 = 0) := by omega
      rw [splitOne_big groups maxLayer l nodes hl hle hne]
      have hlen : (chunks4 nodes).length = ((chunks4 nodes).length - 1) + 1 := by omega
      have hres := rebuild_eq l ((chunks4 nodes).length - 1) (chunks4 nodes) groups []
      rw [hres, fold_mapSetG_fresh _ []
        (splitTargets_keys_nodup l _ (chunks4 nodes) groups hnd hlen) (by simp)]
      rw [List.nil_append]
      refine ⟨splitTargets_keys_nodup l _ (chunks4 nodes) groups hnd hlen, ?_, ?_⟩
      · rw [List.flatMap_assoc]
        apply flatMap_congr_mem
        intro p hp
        unfold splitTargets
        by_cases h1 : l < p.1
        · rw [if_pos h1, List.flatMap_singleton]
        · rw [if_neg h1]
          by_cases h2 : p.1 = l
          · rw [if_pos h2]
            rw [List.flatMap_map]
            have hjoin : (chunks4 nodes).enum.flatMap
                (fun a => ((l + a.1, a.2) : Nat × List Nat).2) = nodes := by
              have h5 : (chunks4 nodes).enum.flatMap
                  (fun a => ((l + a.1, a.2) : Nat × List Nat).2) =
                  (chunks4 nodes).enum.flatMap Prod.snd := rfl
              rw [h5]
              have h6 := List.flatMap_map Prod.snd (fun x => x) (chunks4 nodes).enum
              rw [List.enum_map_snd] at h6
              have h7 : ((chunks4 nodes).enum.flatMap fun a => Prod.snd a) =
                  (chunks4 nodes).enum.flatMap Prod.snd := rfl
              rw [h7] at h6
              rw [← h6]
              have h8 : (chunks4 nodes).flatMap (fun x => x) = (chunks4 nodes).flatMap id := rfl
              rw [h8]
              exact chunks4_join nodes
            rw [hjoin]
            have hm : groups.lookup p.1 = some p.2 := mem_lookup_of_nodupkeys groups p.1 p.2 hnd hp
            rw [h2, hl] at hm
            exact Option.some.inj hm
          · rw [if_neg h2, List.flatMap_singleton]
      · intro p hp hprest
        rw [List.mem_flatMap] at hp
        obtain ⟨q, hq, hpq⟩ := hp
        unfold splitTargets at hpq
        by_cases h1 : l < q.1
        · rw [if_pos h1] at hpq
          rw [List.mem_singleton] at hpq
          subst hpq
          apply hsame q hq
          · intro hmem
            exact absurd (hrest q.1 hmem) (by omega)
          · omega
        · rw [if_neg h1] at hpq
          by_cases h2 : q.1 = l
          · rw [if_pos h2] at hpq
            obtain ⟨r, hr, hrp⟩ := List.mem_map.mp hpq
            subst hrp
            have hc : r.2 ∈ chunks4 nodes := by
              obtain ⟨i, c⟩ := r
              have h8 := List.mem_enum hr
              simp only at h8 ⊢
              rw [h8.2]
              exact List.getElem_mem _
            have h9 := chunks4_le4 nodes r.2 hc
            unfold MAX_PER_LAYER
            simpa using h9
          · rw [if_neg h2] at hpq
            rw [List.mem_singleton] at hpq
            subst hpq
            exact hsame q hq hprest h2

theorem splitFold_invariant (rs : List Nat) :
    ∀ (groups : List (Nat × List Nat)) (maxLayer : Nat),
    (groups.map Prod.fst).Nodup →
    rs.Pairwise (fun a b => b < a) →
    (∀ p ∈ groups, p.1 ∉ rs → p.2.length ≤ MAX_PER_LAYER) →
    (((rs.foldl splitOne (groups, maxLayer)).1.map Prod.fst).Nodup ∧
     (rs.foldl splitOne (groups, maxLayer)).1.flatMap Prod.snd = groups.flatMap Prod.snd ∧
     ∀ p ∈ (rs.foldl splitOne (groups, maxLayer)).1, p.2.length ≤ MAX_PER_LAYER) := by
  induction rs with
  | nil =>
    intro groups maxLayer hnd _ hbound
    refine ⟨hnd, rfl, ?_⟩
    intro p hp
    exact hbound p hp (by simp)
  | cons l rest ih =>
    intro groups maxLayer hnd hdesc hbound
    rw [List.pairwise_cons] at hdesc
    have hstep := splitOne_spec groups maxLayer l rest hnd hdesc.1 hbound
    rw [List.foldl_cons]
    have hpair : splitOne (groups, maxLayer) l =
        ((splitOne (groups, maxLayer) l).1, (splitOne (groups, maxLayer) l).2) := rfl
    rw [hpair]
    obtain ⟨h1, h2, h3⟩ := ih (splitOne (groups, maxLayer) l).1 (splitOne (groups, maxLayer) l).2
      hstep.1 hdesc.2 hstep.2.2
    exact ⟨h1, h2.trans hstep.2.1, h3⟩

theorem sortedLayersDesc_pairwise (groups : List (Nat × List Nat))
    (hnd : (groups.map Prod.fst).Nodup) :
    (sortedLayersDesc groups).Pairwise (fun a b => b < a) := by
  unfold sortedLayersDesc
  have hsorted := stableSort_sorted (fun a b : Nat => decide (b < a))
    (fun a b c hab hbc => by
      simp only [decide_eq_false_iff_not, not_lt] at hab hbc ⊢
      omega)
    (fun a b hab => by
      simp only [decide_eq_true_eq] at hab
      simp only [decide_eq_false_iff_not, not_lt]
      omega)
    (groups.map Prod.fst)
  have hnd2 : (stableSort (fun a b : Nat => decide (b < a)) (groups.map Prod.fst)).Nodup :=
    stableSort_nodup _ _ hnd
  have hcomb := List.Pairwise.and hsorted hnd2
  refine hcomb.imp ?_
  intro a b hab
  simp only [decide_eq_false_iff_not, not_lt] at hab
  rcases hab with ⟨h1, h2⟩
  omega

/-- Connection list of the C7 concrete scenario: node 0 with five
flow children. -/
def C7conns : List GSConnection :=
  [⟨0, 0, 1, 0, ConnKind.flow⟩, ⟨0, 0, 2, 0, ConnKind.flow⟩, ⟨0, 0, 3, 0, ConnKind.flow⟩,
   ⟨0, 0, 4, 0, ConnKind.flow⟩, ⟨0, 0, 5, 0, ConnKind.flow⟩]

/-- Claim C7.  After the layer split, every layer holds at most
MAX_PER_LAYER = 4 nodes, for any grouping map with duplicate-free
keys (the grouping step always produces one); and in the concrete
five-children scenario the children, initially all in layer 1, end
up in layers 1 and 2 with 4 and 1 members. -/
theorem C7_layer_split :
    (∀ (groups : List (Nat × List Nat)) (maxLayer : Nat),
      (groups.map Prod.fst).Nodup →
      ∀ p ∈ (splitLayers groups maxLayer).1, p.2.length ≤ MAX_PER_LAYER) ∧
    (groupPhase 6 C7conns).1 = [(0, [0]), (1, [1, 2, 3, 4, 5])] ∧
    (splitLayers (groupPhase 6 C7conns).1 (groupPhase 6 C7conns).2).1 =
      [(0, [0]), (1, [1, 2, 3, 4]), (2, [5])] := by
  refine ⟨?_, by decide, by decide⟩
  intro groups maxLayer hnd
  have hdesc := sortedLayersDesc_pairwise groups hnd
  have hsub : ∀ p ∈ groups, p.1 ∉ sortedLayersDesc groups → p.2.length ≤ MAX_PER_LAYER := by
    intro p hp hmem
    exfalso
    apply hmem
    unfold sortedLayersDesc
    rw [stableSort_mem]
    exact List.mem_map.mpr ⟨p, hp, rfl⟩
  exact (splitFold_invariant (sortedLayersDesc groups) groups maxLayer hnd hdesc hsub).2.2

/-- Claim C7, witness: the split bound applied to the concrete
grouping of the five-children scenario. -/
theorem C7_witness :
    ∀ p ∈ (splitLayers [(0, [0]), (1, [1, 2, 3, 4, 5])] 1).1, p.2.length ≤ MAX_PER_LAYER :=
  C7_layer_split.1 [(0, [0]), (1, [1, 2, 3, 4, 5])] 1 (by decide)

/-! ## Claim C8: layer monotonicity and the Kahn traversal -/

theorem foldl_adj_char (es : List GSConnection) (key val : GSConnection → Nat) :
    ∀ (f0 : Nat → List Nat) (c : Nat),
    (es.foldl (fun f e => updF f (key e) (f (key e) ++ [val e])) f0) c =
      f0 c ++ (es.filter (fun e => key e == c)).map val := by
  induction es with
  | nil =>
    intro f0 c
    simp
  | cons e t ih =>
    intro f0 c
    rw [List.foldl_cons, ih]
    by_cases hk : key e = c
    · rw [List.filter_cons_of_pos (by simp [hk])]
      unfold updF
      simp [hk]
    · rw [List.filter_cons_of_neg (by simp [hk])]
      unfold updF
      simp [Ne.symm hk, hk]

theorem childrenMap_char (es : List GSConnection) (c : Nat) :
    childrenMap es c =
      (es.filter (fun e => e.sourceNodeIndex == c)).map (fun e => e.targetNodeIndex) := by
  unfold childrenMap
  rw [foldl_adj_char es (fun e => e.sourceNodeIndex) (fun e => e.targetNodeIndex)]
  rfl

theorem parentsMap_char (es : List GSConnection) (c : Nat) :
    parentsMap es c =
      (es.filter (fun e => e.targetNodeIndex == c)).map (fun e => e.sourceNodeIndex) := by
  unfold parentsMap
  rw [foldl_adj_char es (fun e => e.targetNodeIndex) (fun e => e.sourceNodeIndex)]
  rfl

theorem adj_transpose (es : List GSConnection) (u v : Nat) :
    (childrenMap es u).count v = (parentsMap es v).count u := by
  rw [childrenMap_char, parentsMap_char]
  rw [List.count_eq_countP, List.count_eq_countP, List.countP_map, List.countP_map]
  rw [List.countP_filter, List.countP_filter]
  apply List.countP_congr
  intro e _
  simp only [Function.comp]
  constructor
  · intro h
    rw [Bool.and_eq_true] at h ⊢
    exact ⟨by simpa using h.2, by simpa using h.1⟩
  · intro h
    rw [Bool.and_eq_true] at h ⊢
    exact ⟨by simpa using h.2, by simpa using h.1⟩

theorem mem_parents_iff (es : List GSConnection) (u v : Nat) :
    u ∈ parentsMap es v ↔ ∃ e ∈ es, e.sourceNodeIndex = u ∧ e.targetNodeIndex = v := by
  rw [parentsMap_char]
  constructor
  · intro h
    obtain ⟨e, he, heq⟩ := List.mem_map.mp h
    rw [List.mem_filter] at he
    exact ⟨e, he.1, heq, by simpa using he.2⟩
  · intro ⟨e, he, h1, h2⟩
    exact List.mem_map.mpr ⟨e, List.mem_filter.mpr ⟨he, by simp [h2]⟩, h1⟩

theorem countP_split_cur (ps : List Nat) (funcNodes acc : List Nat) (cur : Nat)
    (hcf : cur ∈ funcNodes) (hca : cur ∉ acc) :
    ps.countP (fun p => decide (p ∈ funcNodes) && !decide (p ∈ acc)) =
    ps.countP (fun p => decide (p ∈ funcNodes) && !decide (p ∈ acc ++ [cur])) + ps.count cur := by
  induction ps with
  | nil => simp
  | cons p t ih =>
    rw [List.countP_cons, List.countP_cons, List.count_cons, ih]
    by_cases hp : p = cur
    · have e1 : (decide (p ∈ funcNodes) && !decide (p ∈ acc)) = true := by
        subst hp
        simp [hcf, hca]
      have e2 : (decide (p ∈ funcNodes) && !decide (p ∈ acc ++ [cur])) = false := by
        simp [hp]
      have e3 : (p == cur) = true := by simp [hp]
      rw [e1, e2, e3]
      simp
      omega
    · have e3 : (p == cur) = false := by simp [hp]
      have e4 : (decide (p ∈ funcNodes) && !decide (p ∈ acc ++ [cur])) =
          (decide (p ∈ funcNodes) && !decide (p ∈ acc)) := by
        simp [List.mem_append, hp]
      rw [e3, e4]
      cases hb : (decide (p ∈ funcNodes) && !decide (p ∈ acc)) <;> simp [hb] <;> omega

theorem kahnChildren_spec (funcNodes : List Nat) (cur : Nat) (cs : List Nat) :
    ∀ (deg : Nat → Int) (layer : Nat → Nat) (pushes : List Nat),
    (∀ m, (cs.foldl (kahnStepChild funcNodes cur) (deg, layer, pushes)).1 m =
      deg m - (cs.countP (fun c => c == m && decide (c ∈ funcNodes)) : Int)) ∧
    (∃ new, (cs.foldl (kahnStepChild funcNodes cur) (deg, layer, pushes)).2.2 = pushes ++ new ∧
      new.Nodup ∧
      (∀ p ∈ new, p ∈ funcNodes ∧ 0 < deg p ∧
        (cs.foldl (kahnStepChild funcNodes cur) (deg, layer, pushes)).1 p ≤ 0) ∧
      (∀ m ∈ funcNodes, 0 < deg m →
        (cs.foldl (kahnStepChild funcNodes cur) (deg, layer, pushes)).1 m ≤ 0 → m ∈ new)) := by
  induction cs with
  | nil =>
    intro deg layer pushes
    refine ⟨by intro m; simp, [], by simp, by simp, by simp, ?_⟩
    intro m _ h1 h2
    simp at h2
    omega
  | cons c cs ih =>
    intro deg layer pushes
    rw [List.foldl_cons]
    by_cases hcf : c ∈ funcNodes
    · have hstep : kahnStepChild funcNodes cur (deg, layer, pushes) c =
          (updF deg c (deg c - 1),
           if layer c < layer cur + 1 then updF layer c (layer cur + 1) else layer,
           if updF deg c (deg c - 1) c = 0 then pushes ++ [c] else pushes) := by
        simp only [kahnStepChild, if_pos hcf]
      rw [hstep]
      obtain ⟨ihdeg, new2, ihpush, ihnd, ihcond, ihcomp⟩ :=
        ih (updF deg c (deg c - 1))
          (if layer c < layer cur + 1 then updF layer c (layer cur + 1) else layer)
          (if updF deg c (deg c - 1) c = 0 then pushes ++ [c] else pushes)
      have hupd : updF deg c (deg c - 1) c = deg c - 1 := by
        unfold updF
        simp
      have hdegs : ∀ m, updF deg c (deg c - 1) m =
          deg m - (if c = m then 1 else 0) := by
        intro m
        unfold updF
        by_cases hm : m = c
        · subst hm
          simp
        · have hcm : ¬(c = m) := fun h => hm h.symm
          simp [hm, hcm]
      have hcount : ∀ m, ((c :: cs).countP (fun x => x == m && decide (x ∈ funcNodes)) : Int) =
          (cs.countP (fun x => x == m && decide (x ∈ funcNodes)) : Int) +
            (if c = m then 1 else 0) := by
        intro m
        rw [List.countP_cons]
        by_cases hm : c = m
        · subst hm
          simp [hcf]
        · simp [hm]
      refine ⟨?_, ?_⟩
      · intro m
        rw [ihdeg m, hdegs m, hcount m]
        omega
      · by_cases hzero : updF deg c (deg c - 1) c = 0
        · rw [if_pos hzero] at ihdeg ihpush ihcond ihcomp ⊢
          refine ⟨c :: new2, ?_, ?_, ?_, ?_⟩
          · rw [ihpush]
            simp
          · rw [List.nodup_cons]
            refine ⟨?_, ihnd⟩
            intro hc
            have := (ihcond c hc).2.1
            rw [hupd] at hzero
            rw [hdegs c] at this
            simp at this
            omega
          · intro p hp
            rcases List.mem_cons.mp hp with rfl | hp2
            · rw [hupd] at hzero
              refine ⟨hcf, by omega, ?_⟩
              rw [ihdeg p, hdegs p]
              have : (0 : Int) ≤ (cs.countP (fun x => x == p && decide (x ∈ funcNodes)) : Int) := by
                positivity
              omega
            · obtain ⟨hf, hpos, hfin⟩ := ihcond p hp2
              rw [hdegs p] at hpos
              refine ⟨hf, by omega, hfin⟩
          · intro m hmf hpos hfin
            by_cases hmc : m = c
            · subst hmc
              exact List.mem_cons_self _ _
            · apply List.mem_cons_of_mem
              apply ihcomp m hmf ?_ hfin
              rw [hdegs m]
              have : ¬(c = m) := fun h => hmc h.symm
              simp [this]
              omega
        · rw [if_neg hzero] at ihdeg ihpush ihcond ihcomp ⊢
          refine ⟨new2, ihpush, ihnd, ?_, ?_⟩
          · intro p hp
            obtain ⟨hf, hpos, hfin⟩ := ihcond p hp
            rw [hdegs p] at hpos
            refine ⟨hf, ?_, hfin⟩
            by_cases hpc : c = p
            · omega
            · simp [hpc] at hpos
              omega
          · intro m hmf hpos hfin
            apply ihcomp m hmf ?_ hfin
            rw [hdegs m]
            by_cases hmc : c = m
            · subst hmc
              rw [hupd] at hzero
              simp
              omega
            · simp [hmc]
              omega
    · have hstep : kahnStepChild funcNodes cur (deg, layer, pushes) c = (deg, layer, pushes) := by
        simp only [kahnStepChild, if_neg hcf]
      rw [hstep]
      obtain ⟨ihdeg, new2, ihpush, ihnd, ihcond, ihcomp⟩ := ih deg layer pushes
      have hcount : ∀ m, ((c :: cs).countP (fun x => x == m && decide (x ∈ funcNodes)) : Int) =
          (cs.countP (fun x => x == m && decide (x ∈ funcNodes)) : Int) := by
        intro m
        rw [List.countP_cons]
        by_cases hm : c = m
        · subst hm
          simp [hcf]
        · simp [hm]
      refine ⟨?_, new2, ihpush, ihnd, ihcond, ihcomp⟩
      intro m
      rw [ihdeg m, hcount m]

theorem kahnLoop_invariant (childrenF parentsF : Nat → List Nat) (funcNodes : List Nat)
    (htrans : ∀ u v, (childrenF u).count v = (parentsF v).count u) :
    ∀ (fuel : Nat) (pending : List Nat) (deg : Nat → Int) (layer : Nat → Nat) (acc : List Nat),
    (acc ++ pending).Nodup →
    (∀ m ∈ acc ++ pending, m ∈ funcNodes) →
    (∀ m ∈ pending, ∀ p ∈ parentsF m, p ∈ funcNodes → p ∈ acc) →
    (∀ k (hk : k < acc.length), ∀ p ∈ parentsF (acc.get ⟨k, hk⟩),
      p ∈ funcNodes → p ∈ acc.take k) →
    (∀ m ∈ funcNodes, m ∉ acc ++ pending → 0 < deg m) →
    (∀ m ∈ funcNodes, deg m =
      ((parentsF m).countP (fun p => decide (p ∈ funcNodes) && !decide (p ∈ acc)) : Int)) →
    ((kahnLoop childrenF funcNodes fuel pending deg layer acc).1.Nodup ∧
     (∀ m ∈ (kahnLoop childrenF funcNodes fuel pending deg layer acc).1, m ∈ funcNodes) ∧
     (∀ k (hk : k < (kahnLoop childrenF funcNodes fuel pending deg layer acc).1.length),
       ∀ p ∈ parentsF ((kahnLoop childrenF funcNodes fuel pending deg layer acc).1.get ⟨k, hk⟩),
       p ∈ funcNodes →
       p ∈ (kahnLoop childrenF funcNodes fuel pending deg layer acc).1.take k)) := by
  intro fuel
  induction fuel with
  | zero =>
    intro pending deg layer acc ha hb hc hd he hf
    cases pending with
    | nil =>
      unfold kahnLoop
      exact ⟨ha.of_append_left, fun m hm => hb m (by simpa using List.mem_append_left [] hm), hd⟩
    | cons cur rest =>
      unfold kahnLoop
      exact ⟨ha.of_append_left, fun m hm => hb m (List.mem_append_left _ hm), hd⟩
  | succ fuel ih =>
    intro pending deg layer acc ha hb hc hd he hf
    cases pending with
    | nil =>
      unfold kahnLoop
      exact ⟨ha.of_append_left, fun m hm => hb m (List.mem_append_left _ hm), hd⟩
    | cons cur rest =>
      have hg : ∀ m ∈ acc ++ cur :: rest, deg m = 0 := by
        intro m hm
        have hmf : m ∈ funcNodes := hb m hm
        rw [hf m hmf]
        have hzero : (parentsF m).countP
            (fun p => decide (p ∈ funcNodes) && !decide (p ∈ acc)) = 0 := by
          rw [List.countP_eq_zero]
          intro p hp hcon
          rw [Bool.and_eq_true, decide_eq_true_eq, Bool.not_eq_true',
            decide_eq_false_iff_not] at hcon
          apply hcon.2
          rcases List.mem_append.mp hm with hmacc | hmpend
          · obtain ⟨⟨k, hk⟩, rfl⟩ := List.mem_iff_get.mp hmacc
            exact List.mem_of_mem_take (hd k hk p hp hcon.1)
          · exact hc m hmpend p hp hcon.1
        rw [hzero]
        rfl
      have hcurf : cur ∈ funcNodes := hb cur (by simp)
      have hcurnacc : cur ∉ acc := by
        rw [List.append_cons] at ha
        have := (List.nodup_append.mp (ha.of_append_left)).2.2
        intro hmem
        exact this hmem (by simp)
      obtain ⟨sdeg, new, hpush, hnewnd, hnewcond, hnewcomp⟩ :=
        kahnChildren_spec funcNodes cur (childrenF cur) deg layer []
      rw [List.nil_append] at hpush
      have hf2 : ∀ m ∈ funcNodes,
          ((childrenF cur).foldl (kahnStepChild funcNodes cur) (deg, layer, [])).1 m =
          ((parentsF m).countP
            (fun p => decide (p ∈ funcNodes) && !decide (p ∈ acc ++ [cur])) : Int) := by
        intro m hmf
        rw [sdeg m]
        have hcong : (childrenF cur).countP (fun c => c == m && decide (c ∈ funcNodes)) =
            (childrenF cur).count m := by
          rw [List.count_eq_countP]
          apply List.countP_congr
          intro x _
          constructor
          · intro hx
            rw [Bool.and_eq_true] at hx
            exact hx.1
          · intro hx
            rw [Bool.and_eq_true]
            refine ⟨hx, ?_⟩
            have : x = m := by simpa using hx
            subst this
            simpa using hmf
        rw [hcong, htrans cur m, hf m hmf,
          countP_split_cur (parentsF m) funcNodes acc cur hcurf hcurnacc]
        push_cast
        omega
      have hnewfresh : ∀ p ∈ new, p ∉ acc ++ cur :: rest := by
        intro p hp hmem
        have := (hnewcond p hp).2.1
        rw [hg p hmem] at this
        omega
      unfold kahnLoop
      apply ih (rest ++ ((childrenF cur).foldl (kahnStepChild funcNodes cur) (deg, layer, [])).2.2)
        ((childrenF cur).foldl (kahnStepChild funcNodes cur) (deg, layer, [])).1
        ((childrenF cur).foldl (kahnStepChild funcNodes cur) (deg, layer, [])).2.1
        (acc ++ [cur])
      · rw [hpush]
        rw [List.append_assoc, List.singleton_append, ← List.cons_append,
          ← List.append_assoc]
        rw [List.nodup_append]
        refine ⟨ha, hnewnd, ?_⟩
        intro p hp hpnew
        exact hnewfresh p hpnew hp
      · intro m hm
        rw [hpush] at hm
        rcases List.mem_append.mp hm with h1 | h1
        · rcases List.mem_append.mp h1 with h2 | h2
          · exact hb m (List.mem_append_left _ h2)
          · simp at h2
            subst h2
            exact hcurf
        · rcases List.mem_append.mp h1 with h2 | h2
          · exact hb m (List.mem_append_right _ (List.mem_cons_of_mem _ h2))
          · exact (hnewcond m h2).1
      · intro m hm p hp hpf
        rw [hpush] at hm
        rcases List.mem_append.mp hm with h1 | h1
        · exact List.mem_append_left _ (hc m (List.mem_cons_of_mem _ h1) p hp hpf)
        · have hmf : m ∈ funcNodes := (hnewcond m h1).1
          have hle := (hnewcond m h1).2.2
          rw [hf2 m hmf] at hle
          have hz : (parentsF m).countP
              (fun q => decide (q ∈ funcNodes) && !decide (q ∈ acc ++ [cur])) = 0 := by
            omega
          rw [List.countP_eq_zero] at hz
          by_contra hpin
          apply hz p hp
          rw [Bool.and_eq_true, decide_eq_true_eq, Bool.not_eq_true',
            decide_eq_false_iff_not]
          exact ⟨hpf, hpin⟩
      · intro k hk p hp hpf
        rw [List.length_append, List.length_singleton] at hk
        by_cases hkl : k < acc.length
        · have hget : (acc ++ [cur]).get ⟨k, by rw [List.length_append]; omega⟩ =
              acc.get ⟨k, hkl⟩ := by
            rw [List.get_eq_getElem, List.get_eq_getElem, List.getElem_append_left hkl]
          rw [List.get_eq_getElem] at hget
          rw [List.get_eq_getElem, hget] at hp
          rw [List.take_append_of_le_length (by omega)]
          exact hd k hkl p (by rw [List.get_eq_getElem] at hp ⊢; exact hp) hpf
        · have hkeq : k = acc.length := by omega
          subst hkeq
          have hget : (acc ++ [cur]).get ⟨acc.length, by simp⟩ = cur := by
            rw [List.get_eq_getElem]
            exact List.getElem_concat_length acc cur acc.length rfl _
          rw [hget] at hp
          rw [List.take_left]
          exact hc cur (by simp) p hp hpf
      · intro m hmf hm
        rw [hpush] at hm
        have hmold : m ∉ acc ++ cur :: rest := by
          intro hmem
          apply hm
          rcases List.mem_append.mp hmem with h1 | h1
          · exact List.mem_append_left _ (List.mem_append_left _ h1)
          · rcases List.mem_cons.mp h1 with rfl | h2
            · exact List.mem_append_left _ (List.mem_append_right _ (by simp))
            · exact List.mem_append_right _ (List.mem_append_left _ h2)
        have hdm := he m hmf hmold
        by_cases hle : ((childrenF cur).foldl (kahnStepChild funcNodes cur) (deg, layer, [])).1 m ≤ 0
        · exfalso
          apply hm
          apply List.mem_append_right
          apply List.mem_append_right
          exact hnewcomp m hmf hdm hle
        · omega
      · intro m hmf
        exact hf2 m hmf

theorem minFold_ge_init (funcNodes : List Nat) (ly : Nat → Nat) :
    ∀ (l : List Nat) (a : Nat),
    a ≤ l.foldl (fun m p => if p ∈ funcNodes ∧ m < ly p + 1 then ly p + 1 else m) a := by
  intro l
  induction l with
  | nil => intro a; simp
  | cons p l ih =>
    intro a
    rw [List.foldl_cons]
    by_cases h : p ∈ funcNodes ∧ a < ly p + 1
    · rw [if_pos h]
      exact le_trans (le_of_lt h.2) (ih _)
    · rw [if_neg h]
      exact ih a

theorem minFold_ge_parent (funcNodes : List Nat) (ly : Nat → Nat) :
    ∀ (l : List Nat) (a : Nat) (p : Nat), p ∈ l → p ∈ funcNodes →
    ly p + 1 ≤ l.foldl (fun m q => if q ∈ funcNodes ∧ m < ly q + 1 then ly q + 1 else m) a := by
  intro l
  induction l with
  | nil =>
    intro a p hp
    simp at hp
  | cons q l ih =>
    intro a p hp hpf
    rw [List.foldl_cons]
    rcases List.mem_cons.mp hp with rfl | hp2
    · by_cases h : a < ly p + 1
      · rw [if_pos ⟨hpf, h⟩]
        exact minFold_ge_init funcNodes ly l (ly p + 1)
      · rw [if_neg (fun hc => h hc.2)]
        have := minFold_ge_init funcNodes ly l a
        omega
    · exact ih _ p hp2 hpf

theorem compactLayers_untouched (parentsF : Nat → List Nat) (funcNodes : List Nat) :
    ∀ (q : List Nat) (ly : Nat → Nat) (n : Nat), n ∉ q →
    compactLayers parentsF funcNodes q ly n = ly n := by
  intro q
  induction q with
  | nil =>
    intro ly n _
    rfl
  | cons m q ih =>
    intro ly n hn
    have hstep : compactLayers parentsF funcNodes (m :: q) ly =
        compactLayers parentsF funcNodes q
          (updF ly m (minLayerOf parentsF funcNodes ly m)) := rfl
    rw [hstep, ih _ n (fun h => hn (List.mem_cons_of_mem _ h))]
    have hne : n ≠ m := by
      intro h
      exact hn (by rw [h]; exact List.mem_cons_self m q)
    simp only [updF]
    rw [if_neg hne]

theorem compactLayers_append (parentsF : Nat → List Nat) (funcNodes : List Nat)
    (q1 q2 : List Nat) (ly : Nat → Nat) :
    compactLayers parentsF funcNodes (q1 ++ q2) ly =
    compactLayers parentsF funcNodes q2 (compactLayers parentsF funcNodes q1 ly) := by
  simp [compactLayers, List.foldl_append]

theorem compactLayers_mono (parentsF : Nat → List Nat) (funcNodes : List Nat)
    (queue : List Nat) (ly0 : Nat → Nat) (hnd : queue.Nodup)
    (k : Nat) (hk : k < queue.length) (u : Nat)
    (hu : u ∈ queue.take k)
    (hupar : u ∈ parentsF (queue.get ⟨k, hk⟩))
    (huf : u ∈ funcNodes) :
    compactLayers parentsF funcNodes queue ly0 u <
    compactLayers parentsF funcNodes queue ly0 (queue.get ⟨k, hk⟩) := by
  have hsplit : queue = queue.take k ++ (queue.get ⟨k, hk⟩ :: queue.drop (k + 1)) := by
    conv_lhs => rw [← List.take_append_drop k queue]
    rw [List.drop_eq_getElem_cons hk]
    rfl
  have hnd2 : (queue.take k ++ (queue.get ⟨k, hk⟩ :: queue.drop (k + 1))).Nodup := by
    rw [← hsplit]; exact hnd
  rw [List.nodup_append] at hnd2
  obtain ⟨hnd3, hnd4, hdisj⟩ := hnd2
  have hvrest : queue.get ⟨k, hk⟩ ∉ queue.drop (k + 1) := (List.nodup_cons.mp hnd4).1
  have hurest : u ∉ queue.get ⟨k, hk⟩ :: queue.drop (k + 1) := fun hmem => hdisj hu hmem
  have hune : u ≠ queue.get ⟨k, hk⟩ := fun h => hurest (by rw [h]; exact List.mem_cons_self _ _)
  set v := queue.get ⟨k, hk⟩ with hv
  conv_lhs => rw [hsplit]
  conv_rhs => rw [hsplit]
  rw [compactLayers_append]
  have hcons : compactLayers parentsF funcNodes (queue.get ⟨k, hk⟩ :: queue.drop (k + 1))
      (compactLayers parentsF funcNodes (queue.take k) ly0) =
      compactLayers parentsF funcNodes (queue.drop (k + 1))
        (updF (compactLayers parentsF funcNodes (queue.take k) ly0) (queue.get ⟨k, hk⟩)
          (minLayerOf parentsF funcNodes
            (compactLayers parentsF funcNodes (queue.take k) ly0) (queue.get ⟨k, hk⟩))) := rfl
  rw [hcons]
  rw [compactLayers_untouched parentsF funcNodes _ _ _ hvrest]
  rw [compactLayers_untouched parentsF funcNodes _ _ u
    (fun h => hurest (List.mem_cons_of_mem _ h))]
  simp only [updF]
  rw [if_true, if_neg (hv ▸ hune)]
  have := minFold_ge_parent funcNodes
    (compactLayers parentsF funcNodes (queue.take k) ly0)
    (parentsF (queue.get ⟨k, hk⟩)) 0 u hupar huf
  rw [minLayerOf]
  omega

theorem kahnRun_spec (es : List GSConnection) (funcNodes : List Nat) (nodeCount : Nat)
    (hnd : funcNodes.Nodup) :
    ((kahnRun nodeCount (childrenMap es) funcNodes
        (initFuncInDeg funcNodes (parentsMap es))).1.Nodup ∧
     (∀ m ∈ (kahnRun nodeCount (childrenMap es) funcNodes
        (initFuncInDeg funcNodes (parentsMap es))).1, m ∈ funcNodes) ∧
     (∀ k (hk : k < (kahnRun nodeCount (childrenMap es) funcNodes
          (initFuncInDeg funcNodes (parentsMap es))).1.length),
       ∀ p ∈ parentsMap es ((kahnRun nodeCount (childrenMap es) funcNodes
          (initFuncInDeg funcNodes (parentsMap es))).1.get ⟨k, hk⟩),
       p ∈ funcNodes →
       p ∈ (kahnRun nodeCount (childrenMap es) funcNodes
          (initFuncInDeg funcNodes (parentsMap es))).1.take k)) := by
  have hrun : kahnRun nodeCount (childrenMap es) funcNodes
      (initFuncInDeg funcNodes (parentsMap es)) =
      kahnLoop (childrenMap es) funcNodes nodeCount
        (kahnSeeds funcNodes (initFuncInDeg funcNodes (parentsMap es)))
        (initFuncInDeg funcNodes (parentsMap es)) (fun _ => 0) [] := rfl
  rw [hrun]
  apply kahnLoop_invariant (childrenMap es) (parentsMap es) funcNodes
    (fun u v => adj_transpose es u v) nodeCount
  · rw [List.nil_append]
    exact hnd.filter _
  · intro m hm
    rw [List.nil_append] at hm
    exact (List.mem_filter.mp hm).1
  · intro m hm p hp hpf
    rw [kahnSeeds, List.mem_filter] at hm
    obtain ⟨hmf, hmz⟩ := hm
    exfalso
    rw [initFuncInDeg] at hmz
    rw [if_pos hmf] at hmz
    have hz : (parentsMap es m).countP (fun p => decide (p ∈ funcNodes)) = 0 := by
      have : ((parentsMap es m).countP (fun p => decide (p ∈ funcNodes)) : Int) = 0 := by
        simpa using hmz
      exact_mod_cast this
    rw [List.countP_eq_zero] at hz
    exact hz p hp (by simpa using hpf)
  · intro k hk
    simp at hk
  · intro m hmf hm
    rw [List.nil_append] at hm
    rw [initFuncInDeg, if_pos hmf]
    have hnz : ¬ ((parentsMap es m).countP (fun p => decide (p ∈ funcNodes)) : Int) = 0 := by
      intro hz
      apply hm
      rw [kahnSeeds, List.mem_filter]
      refine ⟨hmf, ?_⟩
      rw [initFuncInDeg, if_pos hmf]
      simpa using hz
    have hge : (0 : Int) ≤ ((parentsMap es m).countP (fun p => decide (p ∈ funcNodes)) : Int) := by
      exact_mod_cast Nat.zero_le _
    omega
  · intro m hmf
    rw [initFuncInDeg, if_pos hmf]
    congr 1
    apply List.countP_congr
    intro x _
    simp

theorem layerPhase_eq (nodeCount : Nat) (conns : List GSConnection) :
    layerPhase nodeCount conns =
    ((kahnRun nodeCount (childrenMap (flowEdgesOf conns))
        (funcNodesOf nodeCount (varNodesOf (varEdgesOf conns)))
        (initFuncInDeg (funcNodesOf nodeCount (varNodesOf (varEdgesOf conns)))
          (parentsMap (flowEdgesOf conns)))).1,
      compactLayers (parentsMap (flowEdgesOf conns))
        (funcNodesOf nodeCount (varNodesOf (varEdgesOf conns)))
        ((kahnRun nodeCount (childrenMap (flowEdgesOf conns))
          (funcNodesOf nodeCount (varNodesOf (varEdgesOf conns)))
          (initFuncInDeg (funcNodesOf nodeCount (varNodesOf (varEdgesOf conns)))
            (parentsMap (flowEdgesOf conns)))).1)
        ((kahnRun nodeCount (childrenMap (flowEdgesOf conns))
          (funcNodesOf nodeCount (varNodesOf (varEdgesOf conns)))
          (initFuncInDeg (funcNodesOf nodeCount (varNodesOf (varEdgesOf conns)))
            (parentsMap (flowEdgesOf conns)))).2)) := rfl

/-- Bounded reachability along the child adjacency: within the given
number of steps a path leads from the first node to the second.  Two
distinct nodes lie in a common strongly-connected component (which
then necessarily contains a cycle) exactly when each reaches the
other at some bound. -/
def reachesIn (childrenF : Nat → List Nat) : Nat → Nat → Nat → Bool
  | 0, u, v => u == v
  | fuel + 1, u, v => u == v || (childrenF u).any (fun c => reachesIn childrenF fuel c v)

/-- C8: for a flow connection whose source is a functional node and
whose target was dequeued by the Kahn traversal, the compacted layer
of the source is strictly below the layer of the target. -/
theorem C8_layer_monotonicity (nodeCount : Nat) (conns : List GSConnection)
    (e : GSConnection) (he : e ∈ flowEdgesOf conns)
    (hu : e.sourceNodeIndex ∈ funcNodesOf nodeCount (varNodesOf (varEdgesOf conns)))
    (hv : e.targetNodeIndex ∈ (layerPhase nodeCount conns).1) :
    (layerPhase nodeCount conns).2 e.sourceNodeIndex <
    (layerPhase nodeCount conns).2 e.targetNodeIndex := by
  rw [layerPhase_eq] at hv ⊢
  obtain ⟨hqnd, hqsub, hd2⟩ := kahnRun_spec (flowEdgesOf conns)
    (funcNodesOf nodeCount (varNodesOf (varEdgesOf conns))) nodeCount
    ((List.nodup_range nodeCount).filter _)
  obtain ⟨⟨k, hk⟩, hget⟩ := List.mem_iff_get.mp hv
  have hupar : e.sourceNodeIndex ∈ parentsMap (flowEdgesOf conns)
      ((kahnRun nodeCount (childrenMap (flowEdgesOf conns))
        (funcNodesOf nodeCount (varNodesOf (varEdgesOf conns)))
        (initFuncInDeg (funcNodesOf nodeCount (varNodesOf (varEdgesOf conns)))
          (parentsMap (flowEdgesOf conns)))).1.get ⟨k, hk⟩) := by
    rw [hget]
    exact (mem_parents_iff _ _ _).mpr ⟨e, he, rfl, rfl⟩
  have hutake := hd2 k hk e.sourceNodeIndex hupar hu
  have := compactLayers_mono (parentsMap (flowEdgesOf conns))
    (funcNodesOf nodeCount (varNodesOf (varEdgesOf conns)))
    ((kahnRun nodeCount (childrenMap (flowEdgesOf conns))
      (funcNodesOf nodeCount (varNodesOf (varEdgesOf conns)))
      (initFuncInDeg (funcNodesOf nodeCount (varNodesOf (varEdgesOf conns)))
        (parentsMap (flowEdgesOf conns)))).1)
    ((kahnRun nodeCount (childrenMap (flowEdgesOf conns))
      (funcNodesOf nodeCount (varNodesOf (varEdgesOf conns)))
      (initFuncInDeg (funcNodesOf nodeCount (varNodesOf (varEdgesOf conns)))
        (parentsMap (flowEdgesOf conns)))).2)
    hqnd k hk e.sourceNodeIndex hutake hupar hu
  rw [hget] at this
  exact this

/-- Graph of the C8 counterexample: a two-node cycle 0 to 1 to 0 and
an edge 0 to 2 out of it. -/
def C8conns : List GSConnection :=
  [⟨0, 0, 1, 0, ConnKind.flow⟩, ⟨1, 0, 0, 0, ConnKind.flow⟩,
   ⟨0, 0, 2, 0, ConnKind.flow⟩]

/-- C8: refuted as stated.  The edge 0 to 2 of the counterexample
graph joins functional nodes in different strongly-connected
components (2 reaches nothing, so no bound lets it reach 0), yet
both endpoints sit at layer 0: the cycle starves the traversal, the
queue stays empty and node 2 keeps the uncompacted layer 0. -/
theorem C8_counterexample :
    (⟨0, 0, 2, 0, ConnKind.flow⟩ : GSConnection) ∈ flowEdgesOf C8conns ∧
    0 ∈ funcNodesOf 3 (varNodesOf (varEdgesOf C8conns)) ∧
    2 ∈ funcNodesOf 3 (varNodesOf (varEdgesOf C8conns)) ∧
    (∀ fuel, reachesIn (childrenMap (flowEdgesOf C8conns)) fuel 2 0 = false) ∧
    (layerPhase 3 C8conns).2 0 = 0 ∧
    (layerPhase 3 C8conns).2 2 = 0 ∧
    ¬ (layerPhase 3 C8conns).2 0 < (layerPhase 3 C8conns).2 2 := by
  refine ⟨by decide, by decide, by decide, ?_, by decide, by decide, by decide⟩
  intro fuel
  induction fuel with
  | zero => rfl
  | succ fuel ih =>
    have h2 : childrenMap (flowEdgesOf C8conns) 2 = [] := rfl
    show (2 == 0 || (childrenMap (flowEdgesOf C8conns) 2).any
      (fun c => reachesIn (childrenMap (flowEdgesOf C8conns)) fuel c 0)) = false
    rw [h2]
    rfl

/-- Chain graph used to instantiate the C8 theorem. -/
def C8wconns : List GSConnection := [⟨0, 0, 1, 0, ConnKind.flow⟩]

theorem C8_witness :
    (⟨0, 0, 1, 0, ConnKind.flow⟩ : GSConnection) ∈ flowEdgesOf C8wconns ∧
    (0 : Nat) ∈ funcNodesOf 2 (varNodesOf (varEdgesOf C8wconns)) ∧
    (1 : Nat) ∈ (layerPhase 2 C8wconns).1 ∧
    (layerPhase 2 C8wconns).2 0 < (layerPhase 2 C8wconns).2 1 :=
  ⟨by decide, by decide, by decide,
   C8_layer_monotonicity 2 C8wconns ⟨0, 0, 1, 0, ConnKind.flow⟩
     (by decide) (by decide) (by decide)⟩

/-! ## Shared machinery for the layout claims C3 and C10 -/

theorem foldl_preserve {σ α : Type} (P : σ → Prop) (f : σ → α → σ)
    (hf : ∀ s a, P s → P (f s a)) :
    ∀ (l : List α) (s : σ), P s → P (l.foldl f s) := by
  intro l
  induction l with
  | nil => intro s hs; exact hs
  | cons a t ih =>
    intro s hs
    rw [List.foldl_cons]
    exact ih _ (hf s a hs)

theorem lookup_split {β : Type} (m : List (Nat × β)) (k : Nat) (v : β)
    (hnd : (m.map Prod.fst).Nodup) (h : m.lookup k = some v) :
    ∃ m1 m2, m = m1 ++ (k, v) :: m2 ∧ k ∉ m1.map Prod.fst ∧ k ∉ m2.map Prod.fst := by
  induction m with
  | nil => simp [List.lookup] at h
  | cons p t ih =>
    obtain ⟨a, b⟩ := p
    rw [List.map_cons, List.nodup_cons] at hnd
    by_cases hk : k = a
    · subst hk
      rw [lookup_cons_key] at h
      obtain rfl : b = v := by simpa using h
      refine ⟨[], t, rfl, by simp, hnd.1⟩
    · rw [lookup_cons_ne _ _ _ _ hk] at h
      obtain ⟨m1, m2, heq, h1, h2⟩ := ih hnd.2 h
      refine ⟨(a, b) :: m1, m2, by rw [heq]; rfl, ?_, h2⟩
      rw [List.map_cons, List.mem_cons]
      rintro (h3 | h3)
      · exact hk h3
      · exact h1 h3

theorem mapSetG_split (m1 m2 : List (Nat × List Nat)) (k : Nat) (g v : List Nat)
    (h1 : k ∉ m1.map Prod.fst) (h2 : k ∉ m2.map Prod.fst) :
    mapSetG (m1 ++ (k, g) :: m2) k v = m1 ++ (k, v) :: m2 := by
  unfold mapSetG
  rw [if_pos]
  · rw [List.map_append, List.map_cons]
    have e1 : m1.map (fun p => if p.1 = k then (k, v) else p) = m1 := by
      conv_rhs => rw [← List.map_id m1]
      apply List.map_congr_left
      intro p hp
      rw [if_neg]
      · rfl
      · intro hpk
        exact h1 (List.mem_map.mpr ⟨p, hp, hpk⟩)
    have e2 : m2.map (fun p => if p.1 = k then (k, v) else p) = m2 := by
      conv_rhs => rw [← List.map_id m2]
      apply List.map_congr_left
      intro p hp
      rw [if_neg]
      · rfl
      · intro hpk
        exact h2 (List.mem_map.mpr ⟨p, hp, hpk⟩)
    rw [e1, e2, if_pos rfl]
  · rw [List.lookup_append]
    have : m1.lookup k = none := by
      cases hl : m1.lookup k with
      | none => rfl
      | some w => exact absurd (List.mem_map.mpr ⟨(k, w), lookup_mem m1 k w hl, rfl⟩) h1
    rw [this, Option.none_or, lookup_cons_key]
    rfl

theorem setPos_of_absent (m : PosMap) (k : Nat) (v : Int × Int)
    (h : k ∉ m.map Prod.fst) : setPos m k v = m ++ [(k, v)] := by
  unfold setPos
  rw [if_neg]
  intro hsome
  exact h ((lookup_isSome_iff_mem_keys m k).mp hsome)

/-- Sequential placement along a list: node j of the list is keyed
to the coordinates of index i0 + j. -/
def placeSeq (coords : Nat → Int × Int) : Nat → List Nat → PosMap
  | _, [] => []
  | i, n :: ns => (n, coords i) :: placeSeq coords (i + 1) ns

theorem placeSeq_keys (coords : Nat → Int × Int) :
    ∀ (i0 : Nat) (ns : List Nat), (placeSeq coords i0 ns).map Prod.fst = ns := by
  intro i0 ns
  induction ns generalizing i0 with
  | nil => rfl
  | cons n ns ih =>
    rw [placeSeq, List.map_cons, ih]

theorem placeSeq_mem (coords : Nat → Int × Int) :
    ∀ (i0 : Nat) (ns : List Nat) (p : Nat × Int × Int), p ∈ placeSeq coords i0 ns →
    ∃ j, ∃ hj : j < ns.length, p.1 = ns.get ⟨j, hj⟩ ∧ p.2 = coords (i0 + j) := by
  intro i0 ns
  induction ns generalizing i0 with
  | nil => intro p hp; simp [placeSeq] at hp
  | cons n ns ih =>
    intro p hp
    rw [placeSeq, List.mem_cons] at hp
    rcases hp with rfl | hp
    · exact ⟨0, by simp, by simp, by simp⟩
    · obtain ⟨j, hj, hmem, hc⟩ := ih (i0 + 1) p hp
      refine ⟨j + 1, by simpa using hj, by simpa using hmem, ?_⟩
      rw [hc]
      congr 1
      omega

theorem enumFrom_fold_setPos (coords : Nat → Int × Int) :
    ∀ (ns : List Nat) (i0 : Nat) (pos : PosMap),
    (∀ n ∈ ns, n ∉ pos.map Prod.fst) → ns.Nodup →
    (List.enumFrom i0 ns).foldl (fun acc q => setPos acc q.2 (coords q.1)) pos =
    pos ++ placeSeq coords i0 ns := by
  intro ns
  induction ns with
  | nil => intro i0 pos _ _; simp [placeSeq]
  | cons n ns ih =>
    intro i0 pos hfresh hnd
    rw [List.nodup_cons] at hnd
    have hstep : List.enumFrom i0 (n :: ns) = (i0, n) :: List.enumFrom (i0 + 1) ns := rfl
    rw [hstep, List.foldl_cons]
    have hset : setPos pos n (coords i0) = pos ++ [(n, coords i0)] :=
      setPos_of_absent pos n _ (hfresh n (by simp))
    rw [hset, ih (i0 + 1) (pos ++ [(n, coords i0)]) ?hf hnd.2]
    · rw [placeSeq, List.append_assoc]
      rfl
    case hf =>
      intro m hm
      rw [List.map_append, List.mem_append]
      rintro (h1 | h1)
      · exact hfresh m (List.mem_cons_of_mem _ hm) h1
      · simp at h1
        subst h1
        exact hnd.1 hm

theorem mapSetG_split_keys (m1 m2 : List (Nat × List Nat)) (k : Nat) (g v : List Nat)
    (h1 : k ∉ m1.map Prod.fst) (h2 : k ∉ m2.map Prod.fst) :
    ((mapSetG (m1 ++ (k, g) :: m2) k v).map Prod.fst) =
    ((m1 ++ (k, g) :: m2).map Prod.fst) := by
  rw [mapSetG_split m1 m2 k g v h1 h2]
  simp

theorem mapSetG_split_join (m1 m2 : List (Nat × List Nat)) (k : Nat) (g v : List Nat)
    (h1 : k ∉ m1.map Prod.fst) (h2 : k ∉ m2.map Prod.fst) (hperm : v.Perm g) :
    ((mapSetG (m1 ++ (k, g) :: m2) k v).flatMap Prod.snd).Perm
    ((m1 ++ (k, g) :: m2).flatMap Prod.snd) := by
  rw [mapSetG_split m1 m2 k g v h1 h2]
  rw [List.flatMap_append, List.flatMap_append, List.flatMap_cons, List.flatMap_cons]
  exact List.Perm.append (List.Perm.refl _)
    (List.Perm.append hperm (List.Perm.refl _))

/-- Invariant of the layer-grouping fold: distinct keys, and the
concatenated group contents are a permutation of the processed
nodes. -/
theorem groupFold_invariant (ly : Nat → Nat) :
    ∀ (ns : List Nat) (groups : List (Nat × List Nat)),
    (groups.map Prod.fst).Nodup →
    (((ns.foldl (fun groups n =>
        match groups.lookup (ly n) with
        | some g => mapSetG groups (ly n) (g ++ [n])
        | none => groups ++ [(ly n, [n])]) groups).map Prod.fst).Nodup ∧
     ((ns.foldl (fun groups n =>
        match groups.lookup (ly n) with
        | some g => mapSetG groups (ly n) (g ++ [n])
        | none => groups ++ [(ly n, [n])]) groups).flatMap Prod.snd).Perm
       (groups.flatMap Prod.snd ++ ns)) := by
  intro ns
  induction ns with
  | nil =>
    intro groups hnd
    exact ⟨hnd, by simp⟩
  | cons n t ih =>
    intro groups hnd
    rw [List.foldl_cons]
    cases hl : groups.lookup (ly n) with
    | some g =>
      obtain ⟨m1, m2, heq, h1, h2⟩ := lookup_split groups (ly n) g hnd hl
      subst heq
      have hkeys := mapSetG_split_keys m1 m2 (ly n) g (g ++ [n]) h1 h2
      have hjoin := mapSetG_split_join m1 m2 (ly n) g (g ++ [n]) h1 h2
      obtain ⟨ihnd, ihperm⟩ := ih (mapSetG (m1 ++ (ly n, g) :: m2) (ly n) (g ++ [n]))
        (by rw [hkeys]; exact hnd)
      refine ⟨ihnd, ihperm.trans ?_⟩
      rw [mapSetG_split m1 m2 (ly n) g (g ++ [n]) h1 h2]
      rw [List.perm_iff_count]
      intro a
      simp [List.count_append, List.count_cons]
      omega
    | none =>
      have hfresh : ly n ∉ groups.map Prod.fst := by
        intro hmem
        rw [← lookup_isSome_iff_mem_keys, hl] at hmem
        simp at hmem
      obtain ⟨ihnd, ihperm⟩ := ih (groups ++ [(ly n, [n])])
        (by rw [List.map_append]; simp only [List.map_cons, List.map_nil]
            exact List.Nodup.append hnd (by simp) (by
              intro a ha hb
              simp at hb
              subst hb
              exact hfresh ha))
      refine ⟨ihnd, ihperm.trans ?_⟩
      rw [List.perm_iff_count]
      intro a
      simp [List.count_append, List.count_cons]

theorem groupByLayer_spec (funcNodes : List Nat) (ly : Nat → Nat) :
    ((groupByLayer funcNodes ly).map Prod.fst).Nodup ∧
    ((groupByLayer funcNodes ly).flatMap Prod.snd).Perm funcNodes := by
  obtain ⟨h1, h2⟩ := groupFold_invariant ly funcNodes [] (by simp)
  exact ⟨h1, by simpa using h2⟩

/-- Mapping the values of a grouping keeps the keys and permutes the
join when each value is permuted. -/
theorem map_values_join_perm (groups : List (Nat × List Nat)) (f : List Nat → List Nat)
    (hf : ∀ v, (f v).Perm v) :
    ((groups.map (fun p => (p.1, f p.2))).flatMap Prod.snd).Perm
    (groups.flatMap Prod.snd) := by
  induction groups with
  | nil => simp
  | cons p t ih =>
    rw [List.map_cons, List.flatMap_cons, List.flatMap_cons]
    exact List.Perm.append (hf p.2) ih

theorem keys_nodup_inj {β : Type} (m : List (Nat × β)) (hnd : (m.map Prod.fst).Nodup)
    (p q : Nat × β) (hp : p ∈ m) (hq : q ∈ m) (hkey : p.1 = q.1) : p = q := by
  have h1 : m.lookup p.1 = some p.2 := mem_lookup_of_nodupkeys m p.1 p.2 hnd hp
  have h2 : m.lookup q.1 = some q.2 := mem_lookup_of_nodupkeys m q.1 q.2 hnd hq
  rw [hkey, h2] at h1
  obtain h3 : q.2 = p.2 := by simpa using h1
  exact Prod.ext hkey h3.symm

theorem placeSeq_inj (coords : Nat → Int × Int)
    (hinj : ∀ i j, coords i = coords j → i = j)
    (i0 : Nat) (ns : List Nat) (p q : Nat × Int × Int)
    (hp : p ∈ placeSeq coords i0 ns) (hq : q ∈ placeSeq coords i0 ns)
    (hpos : p.2 = q.2) : p.1 = q.1 := by
  obtain ⟨j1, hj1, hk1, hc1⟩ := placeSeq_mem coords i0 ns p hp
  obtain ⟨j2, hj2, hk2, hc2⟩ := placeSeq_mem coords i0 ns q hq
  rw [hc1, hc2] at hpos
  have : i0 + j1 = i0 + j2 := hinj _ _ hpos
  obtain rfl : j1 = j2 := by omega
  rw [hk1, hk2]

theorem baryLayer_none (pF cF : Nat → List Nat) (fn : List Nat) (fw : Bool)
    (groups : List (Nat × List Nat)) (ord : Nat → Nat) (l : Nat)
    (h : groups.lookup l = none) :
    baryLayer pF cF fn fw (groups, ord) l = (groups, ord) := by
  simp only [baryLayer, h]

theorem baryLayer_small (pF cF : Nat → List Nat) (fn : List Nat) (fw : Bool)
    (groups : List (Nat × List Nat)) (ord : Nat → Nat) (l : Nat) (nodes : List Nat)
    (h : groups.lookup l = some nodes) (hlen : nodes.length ≤ 1) :
    baryLayer pF cF fn fw (groups, ord) l = (groups, ord) := by
  simp only [baryLayer, h, if_pos hlen]

theorem baryLayer_big (pF cF : Nat → List Nat) (fn : List Nat) (fw : Bool)
    (groups : List (Nat × List Nat)) (ord : Nat → Nat) (l : Nat) (nodes : List Nat)
    (h : groups.lookup l = some nodes) (hlen : ¬ nodes.length ≤ 1) :
    baryLayer pF cF fn fw (groups, ord) l =
    (mapSetG groups l (stableSort (fun a b =>
        fracLt (baryOf (if fw then pF a else cF a) fn ord a)
          (baryOf (if fw then pF b else cF b) fn ord b)) nodes),
     setRanks ord (stableSort (fun a b =>
        fracLt (baryOf (if fw then pF a else cF a) fn ord a)
          (baryOf (if fw then pF b else cF b) fn ord b)) nodes)) := by
  simp only [baryLayer, h, if_neg hlen]

theorem baryLayer_preserves (pF cF : Nat → List Nat) (fn : List Nat) (fw : Bool)
    (J : List Nat) :
    ∀ (st : List (Nat × List Nat) × (Nat → Nat)) (l : Nat),
    ((st.1.map Prod.fst).Nodup ∧ (st.1.flatMap Prod.snd).Perm J) →
    (((baryLayer pF cF fn fw st l).1.map Prod.fst).Nodup ∧
     ((baryLayer pF cF fn fw st l).1.flatMap Prod.snd).Perm J) := by
  intro st l hP
  obtain ⟨groups, ord⟩ := st
  obtain ⟨hnd, hperm⟩ := hP
  cases hl : groups.lookup l with
  | none =>
    rw [baryLayer_none pF cF fn fw groups ord l hl]
    exact ⟨hnd, hperm⟩
  | some nodes =>
    by_cases hlen : nodes.length ≤ 1
    · rw [baryLayer_small pF cF fn fw groups ord l nodes hl hlen]
      exact ⟨hnd, hperm⟩
    · rw [baryLayer_big pF cF fn fw groups ord l nodes hl hlen]
      obtain ⟨m1, m2, heq, h1, h2⟩ := lookup_split groups l nodes hnd hl
      subst heq
      constructor
      · rw [mapSetG_split_keys m1 m2 l nodes _ h1 h2]
        exact hnd
      · exact (mapSetG_split_join m1 m2 l nodes _ h1 h2 (stableSort_perm _ _)).trans hperm

theorem baryPasses_preserves (pF cF : Nat → List Nat) (fn : List Nat) (maxL : Nat)
    (J : List Nat) (st0 : List (Nat × List Nat) × (Nat → Nat))
    (h0 : (st0.1.map Prod.fst).Nodup ∧ (st0.1.flatMap Prod.snd).Perm J) :
    (((baryPasses pF cF fn maxL st0).1.map Prod.fst).Nodup ∧
     ((baryPasses pF cF fn maxL st0).1.flatMap Prod.snd).Perm J) := by
  unfold baryPasses
  exact foldl_preserve
    (fun st => (st.1.map Prod.fst).Nodup ∧ (st.1.flatMap Prod.snd).Perm J)
    (fun st pass =>
      (passLayers (pass % 2 == 0) maxL).foldl (baryLayer pF cF fn (pass % 2 == 0)) st)
    (fun s a hs =>
      foldl_preserve
        (fun st => (st.1.map Prod.fst).Nodup ∧ (st.1.flatMap Prod.snd).Perm J)
        (baryLayer pF cF fn (a % 2 == 0))
        (fun s2 l hs2 => baryLayer_preserves pF cF fn _ J s2 l hs2)
        (passLayers (a % 2 == 0) maxL) s hs)
    (List.range 8) st0 h0

theorem map_values_keys (groups : List (Nat × List Nat)) (f : List Nat → List Nat) :
    (groups.map (fun p => (p.1, f p.2))).map Prod.fst = groups.map Prod.fst := by
  rw [List.map_map]
  apply List.map_congr_left
  intro p _
  rfl

theorem orderPhase_eq (n : Nat) (conns : List GSConnection) :
    orderPhase n conns =
    baryPasses (parentsMap (flowEdgesOf conns)) (childrenMap (flowEdgesOf conns))
      (funcNodesOf n (varNodesOf (varEdgesOf conns)))
      (splitLayers (groupPhase n conns).1 (groupPhase n conns).2).2
      (initOrderPhase (splitLayers (groupPhase n conns).1 (groupPhase n conns).2).1) := rfl

theorem splitLayers_spec (groups : List (Nat × List Nat)) (maxLayer : Nat)
    (hnd : (groups.map Prod.fst).Nodup) :
    (((splitLayers groups maxLayer).1.map Prod.fst).Nodup ∧
     (splitLayers groups maxLayer).1.flatMap Prod.snd = groups.flatMap Prod.snd ∧
     ∀ p ∈ (splitLayers groups maxLayer).1, p.2.length ≤ MAX_PER_LAYER) := by
  unfold splitLayers
  apply splitFold_invariant (sortedLayersDesc groups) groups maxLayer hnd
    (sortedLayersDesc_pairwise groups hnd)
  intro p hp hnot
  exfalso
  apply hnot
  unfold sortedLayersDesc
  rw [stableSort_mem]
  exact List.mem_map.mpr ⟨p, hp, rfl⟩

theorem orderPhase_spec (n : Nat) (conns : List GSConnection) :
    (((orderPhase n conns).1.map Prod.fst).Nodup ∧
     ((orderPhase n conns).1.flatMap Prod.snd).Perm
       (funcNodesOf n (varNodesOf (varEdgesOf conns)))) := by
  rw [orderPhase_eq]
  obtain ⟨hnd0, hperm0⟩ := groupByLayer_spec
    (funcNodesOf n (varNodesOf (varEdgesOf conns))) (layerPhase n conns).2
  have hg : (groupPhase n conns).1 =
      groupByLayer (funcNodesOf n (varNodesOf (varEdgesOf conns))) (layerPhase n conns).2 := rfl
  obtain ⟨hnd1, hjoin1, _⟩ := splitLayers_spec (groupPhase n conns).1 (groupPhase n conns).2
    (by rw [hg]; exact hnd0)
  apply baryPasses_preserves
  constructor
  · have hk : ((initOrderPhase (splitLayers (groupPhase n conns).1
        (groupPhase n conns).2).1).1.map Prod.fst) =
        ((splitLayers (groupPhase n conns).1 (groupPhase n conns).2).1.map Prod.fst) :=
      map_values_keys _ _
    rw [hk]
    exact hnd1
  · have hj := map_values_join_perm
      (splitLayers (groupPhase n conns).1 (groupPhase n conns).2).1
      (stableSort (fun a b => decide (a < b)))
      (fun v => stableSort_perm _ v)
    refine hj.trans ?_
    rw [hjoin1, hg]
    exact hperm0

/-- The functional placement written as explicit entries: one
placeSeq block per layer group. -/
def funcEntriesOf (ord : Nat → Nat) (groups : List (Nat × List Nat)) : PosMap :=
  groups.flatMap (fun p =>
    placeSeq (fun i => ((p.1 : Int) * LAYER_GAP_X,
      -(((stableSort (fun a b => decide (ord a < ord b)) p.2).length : Int) * LAYER_GAP_Y) / 2 +
        (i : Int) * LAYER_GAP_Y)) 0
      (stableSort (fun a b => decide (ord a < ord b)) p.2))

theorem placeFunc_fold (ord : Nat → Nat) :
    ∀ (groups : List (Nat × List Nat)) (pos : PosMap),
    (groups.flatMap Prod.snd).Nodup →
    (∀ n ∈ groups.flatMap Prod.snd, n ∉ pos.map Prod.fst) →
    groups.foldl (fun pos p =>
      let nodes2 := stableSort (fun a b => decide (ord a < ord b)) p.2
      let x : Int := (p.1 : Int) * LAYER_GAP_X
      let startY : Int := -((nodes2.length : Int) * LAYER_GAP_Y) / 2
      nodes2.enum.foldl (fun pos q => setPos pos q.2 (x, startY + (q.1 : Int) * LAYER_GAP_Y)) pos)
      pos
    = pos ++ funcEntriesOf ord groups := by
  intro groups
  induction groups with
  | nil =>
    intro pos _ _
    simp [funcEntriesOf]
  | cons p t ih =>
    intro pos hnd hfresh
    rw [List.flatMap_cons] at hnd hfresh
    have hpnd : (stableSort (fun a b => decide (ord a < ord b)) p.2).Nodup :=
      stableSort_nodup _ _ hnd.of_append_left
    simp only [List.foldl_cons]
    have henum : ∀ (l : List Nat), l.enum = List.enumFrom 0 l := fun l => rfl
    rw [henum]
    rw [enumFrom_fold_setPos (fun i => ((p.1 : Int) * LAYER_GAP_X,
      -(((stableSort (fun a b => decide (ord a < ord b)) p.2).length : Int) * LAYER_GAP_Y) / 2 +
        (i : Int) * LAYER_GAP_Y)) (stableSort (fun a b => decide (ord a < ord b)) p.2) 0 pos
      (fun m hm => hfresh m (List.mem_append_left _ ((stableSort_mem _ _ _).mp hm))) hpnd]
    rw [ih _ (by
        have := (List.nodup_append.mp hnd)
        exact this.2.1)
      (by
        intro m hm
        rw [List.map_append, List.mem_append]
        rintro (h1 | h1)
        · exact hfresh m (List.mem_append_right _ hm) h1
        · rw [placeSeq_keys] at h1
          exact (List.nodup_append.mp hnd).2.2 ((stableSort_mem _ _ _).mp h1) hm)]
    rw [List.append_assoc]
    rfl

theorem placeFunc_char (groups : List (Nat × List Nat)) (ord : Nat → Nat)
    (hnd : (groups.flatMap Prod.snd).Nodup) :
    placeFunc (groups, ord) = funcEntriesOf ord groups := by
  have h := placeFunc_fold ord groups [] hnd (by simp)
  simpa [placeFunc] using h

theorem funcEntriesOf_keys (ord : Nat → Nat) (groups : List (Nat × List Nat)) :
    ((funcEntriesOf ord groups).map Prod.fst).Perm (groups.flatMap Prod.snd) := by
  unfold funcEntriesOf
  rw [List.map_flatMap]
  induction groups with
  | nil => simp
  | cons p t ih =>
    rw [List.flatMap_cons, List.flatMap_cons]
    refine List.Perm.append ?_ ih
    rw [placeSeq_keys]
    exact stableSort_perm _ _

theorem funcEntriesOf_mem (ord : Nat → Nat) (groups : List (Nat × List Nat))
    (q : Nat × Int × Int) (hq : q ∈ funcEntriesOf ord groups) :
    ∃ p ∈ groups, ∃ j, ∃ hj : j <
        (stableSort (fun a b => decide (ord a < ord b)) p.2).length,
      q.1 = (stableSort (fun a b => decide (ord a < ord b)) p.2).get ⟨j, hj⟩ ∧
      q.2 = ((p.1 : Int) * LAYER_GAP_X,
        -(((stableSort (fun a b => decide (ord a < ord b)) p.2).length : Int) * LAYER_GAP_Y) / 2 +
          (j : Int) * LAYER_GAP_Y) := by
  unfold funcEntriesOf at hq
  obtain ⟨p, hp, hmem⟩ := List.mem_flatMap.mp hq
  obtain ⟨j, hj, hk, hc⟩ := placeSeq_mem _ 0 _ q hmem
  exact ⟨p, hp, j, hj, hk, by simpa using hc⟩

theorem funcEntriesOf_distinct (ord : Nat → Nat) (groups : List (Nat × List Nat))
    (hk : (groups.map Prod.fst).Nodup)
    (p q : Nat × Int × Int) (hp : p ∈ funcEntriesOf ord groups)
    (hq : q ∈ funcEntriesOf ord groups) (hpos : p.2 = q.2) : p.1 = q.1 := by
  obtain ⟨g1, hg1, j1, hj1, hk1, hc1⟩ := funcEntriesOf_mem ord groups p hp
  obtain ⟨g2, hg2, j2, hj2, hk2, hc2⟩ := funcEntriesOf_mem ord groups q hq
  rw [hc1, hc2, Prod.mk.injEq] at hpos
  have hx : (g1.1 : Int) * LAYER_GAP_X = (g2.1 : Int) * LAYER_GAP_X := hpos.1
  have hgk : g1.1 = g2.1 := by
    have : (g1.1 : Int) = g2.1 := by
      have h360 : (LAYER_GAP_X : Int) ≠ 0 := by decide
      exact mul_right_cancel₀ h360 hx
    exact_mod_cast this
  obtain rfl : g1 = g2 := keys_nodup_inj groups hk g1 g2 hg1 hg2 hgk
  have hy := hpos.2
  simp only [LAYER_GAP_Y] at hy
  obtain rfl : j1 = j2 := by omega
  rw [hk1, hk2]

theorem foldl_max_ge (l : List Int) : ∀ (a : Int),
    (a ≤ l.foldl max a) ∧ ∀ z ∈ l, z ≤ l.foldl max a := by
  induction l with
  | nil => intro a; exact ⟨le_refl a, by simp⟩
  | cons x t ih =>
    intro a
    rw [List.foldl_cons]
    obtain ⟨h1, h2⟩ := ih (max a x)
    refine ⟨le_trans (le_max_left a x) h1, ?_⟩
    intro z hz
    rcases List.mem_cons.mp hz with rfl | hz2
    · exact le_trans (le_max_right a z) h1
    · exact h2 z hz2

theorem globalBottomY_ge (pos : PosMap) : ∀ q ∈ pos, q.2.2 ≤ globalBottomY pos := by
  intro q hq
  unfold globalBottomY
  have hm : q.2.2 ∈ pos.map (fun p => p.2.2) := List.mem_map.mpr ⟨q, hq, rfl⟩
  cases hp : pos.map (fun p => p.2.2) with
  | nil => rw [hp] at hm; simp at hm
  | cons y ys =>
    rw [hp] at hm
    rcases List.mem_cons.mp hm with heq | hmem
    · rw [heq]
      exact (foldl_max_ge ys y).1
    · exact (foldl_max_ge ys y).2 _ hmem

theorem setAdd_nodup (l : List Nat) (x : Nat) (h : l.Nodup) : (setAdd l x).Nodup := by
  unfold setAdd
  by_cases hx : x ∈ l
  · rw [if_pos hx]; exact h
  · rw [if_neg hx]
    exact List.Nodup.append h (by simp) (by
      intro a ha hb
      simp at hb
      subst hb
      exact hx ha)

theorem varNodesOf_nodup (ve : List GSConnection) : (varNodesOf ve).Nodup := by
  unfold varNodesOf
  have : ∀ (l : List GSConnection) (s : List Nat), s.Nodup →
      (l.foldl (fun s e => setAdd s e.sourceNodeIndex) s).Nodup := by
    intro l
    induction l with
    | nil => intro s hs; exact hs
    | cons e t ih =>
      intro s hs
      rw [List.foldl_cons]
      exact ih _ (setAdd_nodup s e.sourceNodeIndex hs)
  exact this ve [] (by simp)

theorem mem_funcNodesOf (nc : Nat) (vs : List Nat) (i : Nat) :
    i ∈ funcNodesOf nc vs ↔ i < nc ∧ i ∉ vs := by
  unfold funcNodesOf
  rw [List.mem_filter, List.mem_range]
  simp

theorem funcNodesOf_nodup (nc : Nat) (vs : List Nat) : (funcNodesOf nc vs).Nodup :=
  (List.nodup_range nc).filter _

theorem allVarNodesOf_eq (ve : List GSConnection) :
    allVarNodesOf ve (varNodesOf ve) =
    stableSort (fun a b => decide (a < b)) (varNodesOf ve) := by
  have hvc : ve.foldl (fun s e => setAdd s e.sourceNodeIndex) [] = varNodesOf ve := rfl
  simp only [allVarNodesOf]
  rw [hvc]
  have hfil : (stableSort (fun a b => decide (a < b)) (varNodesOf ve)).filter
      (fun vn => !((varNodesOf ve).contains vn)) = [] := by
    rw [List.filter_eq_nil_iff]
    intro a ha
    rw [stableSort_mem] at ha
    simp [ha]
  rw [hfil, List.append_nil]

theorem placeVars_char (pos : PosMap) (allVar : List Nat) (varBaseX varBaseY : Int)
    (hnd : allVar.Nodup) (hfresh : ∀ n ∈ allVar, n ∉ pos.map Prod.fst) :
    placeVars pos allVar varBaseX varBaseY =
    pos ++ placeSeq (fun i => (varBaseX + ((i % VAR_COLS : Nat) : Int) * VAR_CELL_W,
      varBaseY + ((i / VAR_COLS : Nat) : Int) * VAR_CELL_H)) 0 allVar := by
  unfold placeVars
  have henum : allVar.enum = List.enumFrom 0 allVar := rfl
  rw [henum]
  exact enumFrom_fold_setPos
    (fun i => (varBaseX + ((i % VAR_COLS : Nat) : Int) * VAR_CELL_W,
      varBaseY + ((i / VAR_COLS : Nat) : Int) * VAR_CELL_H))
    allVar 0 pos hfresh hnd

theorem placeRemaining_fold (minX rY : Int) :
    ∀ (l : List Nat) (pos : PosMap) (cnt : Nat), l.Nodup →
    (l.foldl (fun (st : PosMap × Nat) i =>
        if (st.1.lookup i).isSome then st
        else (setPos st.1 i (minX + (st.2 : Int) * NODE_W, rY), st.2 + 1)) (pos, cnt)).1 =
    pos ++ placeSeq (fun j => (minX + (j : Int) * NODE_W, rY)) cnt
      (l.filter (fun i => !(pos.lookup i).isSome)) := by
  intro l
  induction l with
  | nil =>
    intro pos cnt _
    simp [placeSeq]
  | cons i t ih =>
    intro pos cnt hnd
    rw [List.nodup_cons] at hnd
    simp only [List.foldl_cons]
    cases hs : (pos.lookup i).isSome with
    | true =>
      rw [if_pos rfl]
      rw [ih pos cnt hnd.2]
      have hfil : (i :: t).filter (fun j => !(pos.lookup j).isSome) =
          t.filter (fun j => !(pos.lookup j).isSome) := by
        rw [List.filter_cons, hs]
        rw [if_neg (by decide)]
      rw [hfil]
    | false =>
      rw [if_neg (by exact fun h => Bool.false_ne_true h)]
      have habs : i ∉ pos.map Prod.fst := by
        intro hmem
        have hsome := (lookup_isSome_iff_mem_keys pos i).mpr hmem
        rw [hs] at hsome
        exact Bool.false_ne_true hsome
      rw [setPos_of_absent pos i _ habs]
      rw [ih (pos ++ [(i, (minX + (cnt : Int) * NODE_W, rY))]) (cnt + 1) hnd.2]
      have hfil2 : t.filter (fun j =>
          !((pos ++ [(i, (minX + (cnt : Int) * NODE_W, rY))]).lookup j).isSome) =
          t.filter (fun j => !(pos.lookup j).isSome) := by
        apply List.filter_congr
        intro j hj
        have hji : j ≠ i := fun h => hnd.1 (h ▸ hj)
        rw [List.lookup_append]
        have hnone : ([(i, (minX + (cnt : Int) * NODE_W, rY))] : PosMap).lookup j = none := by
          rw [lookup_cons_ne _ _ _ _ hji]
          rfl
        rw [hnone, Option.or_none]
      rw [hfil2]
      have hfil3 : (i :: t).filter (fun j => !(pos.lookup j).isSome) =
          i :: t.filter (fun j => !(pos.lookup j).isSome) := by
        rw [List.filter_cons, hs]
        rw [if_pos (by decide)]
      rw [hfil3, placeSeq, List.append_assoc]
      rfl

theorem placeRemaining_char (pos : PosMap) (nodeCount : Nat) (minX rY : Int) :
    placeRemaining pos nodeCount minX rY =
    pos ++ placeSeq (fun j => (minX + (j : Int) * NODE_W, rY)) 0
      ((List.range nodeCount).filter (fun i => !(pos.lookup i).isSome)) := by
  unfold placeRemaining
  exact placeRemaining_fold minX rY (List.range nodeCount) pos 0 (List.nodup_range nodeCount)

theorem perm_of_nodup_same_mem (l1 l2 : List Nat) (h1 : l1.Nodup) (h2 : l2.Nodup)
    (hm : ∀ a, a ∈ l1 ↔ a ∈ l2) : l1.Perm l2 := by
  rw [List.perm_iff_count]
  intro a
  by_cases ha : a ∈ l1
  · rw [List.count_eq_one_of_mem h1 ha, List.count_eq_one_of_mem h2 ((hm a).mp ha)]
  · rw [List.count_eq_zero_of_not_mem ha,
      List.count_eq_zero_of_not_mem (fun hb => ha ((hm a).mpr hb))]

theorem mem_setAdd (l : List Nat) (x a : Nat) : a ∈ setAdd l x ↔ a ∈ l ∨ a = x := by
  unfold setAdd
  by_cases hx : x ∈ l
  · rw [if_pos hx]
    constructor
    · exact Or.inl
    · rintro (h | rfl)
      · exact h
      · exact hx
  · rw [if_neg hx]
    simp

theorem mem_varNodesOf (ve : List GSConnection) (a : Nat) :
    a ∈ varNodesOf ve ↔ ∃ e ∈ ve, e.sourceNodeIndex = a := by
  have hgen : ∀ (l : List GSConnection) (s : List Nat),
      (a ∈ l.foldl (fun s e => setAdd s e.sourceNodeIndex) s ↔
       a ∈ s ∨ ∃ e ∈ l, e.sourceNodeIndex = a) := by
    intro l
    induction l with
    | nil => intro s; simp
    | cons e t ih =>
      intro s
      rw [List.foldl_cons, ih, mem_setAdd]
      constructor
      · rintro ((h | h) | h)
        · exact Or.inl h
        · exact Or.inr ⟨e, by simp, h.symm⟩
        · obtain ⟨f, hf, hfa⟩ := h
          exact Or.inr ⟨f, List.mem_cons_of_mem _ hf, hfa⟩
      · rintro (h | h)
        · exact Or.inl (Or.inl h)
        · obtain ⟨f, hf, hfa⟩ := h
          rcases List.mem_cons.mp hf with rfl | hf2
          · exact Or.inl (Or.inr hfa.symm)
          · exact Or.inr ⟨f, hf2, hfa⟩
  rw [varNodesOf, hgen ve []]
  simp

theorem layoutNodesCore_eq (n : Nat) (conns : List GSConnection) :
    layoutNodesCore n conns =
    placeRemaining
      (placeVars (placeFunc (orderPhase n conns))
        (allVarNodesOf (varEdgesOf conns) (varNodesOf (varEdgesOf conns)))
        (globalMinX (placeFunc (orderPhase n conns)))
        (globalBottomY (placeFunc (orderPhase n conns)) + VAR_ZONE_GAP))
      n (globalMinX (placeFunc (orderPhase n conns)))
      (if 0 < (allVarNodesOf (varEdgesOf conns) (varNodesOf (varEdgesOf conns))).length then
        globalBottomY (placeFunc (orderPhase n conns)) + VAR_ZONE_GAP +
          ((((allVarNodesOf (varEdgesOf conns) (varNodesOf (varEdgesOf conns))).length - 1) /
            VAR_COLS + 1 : Nat) : Int) * VAR_CELL_H + VAR_ZONE_GAP
      else globalBottomY (placeFunc (orderPhase n conns)) + VAR_ZONE_GAP + VAR_ZONE_GAP) := rfl

theorem placeFunc_char2 (st : List (Nat × List Nat) × (Nat → Nat))
    (hnd : (st.1.flatMap Prod.snd).Nodup) :
    placeFunc st = funcEntriesOf st.2 st.1 := by
  obtain ⟨groups, ord⟩ := st
  exact placeFunc_char groups ord hnd

theorem placeVars_keys (pos : PosMap) (allVar : List Nat) (b1 b2 : Int)
    (hnd : allVar.Nodup) (hfresh : ∀ a ∈ allVar, a ∉ pos.map Prod.fst) :
    (placeVars pos allVar b1 b2).map Prod.fst = pos.map Prod.fst ++ allVar := by
  rw [placeVars_char pos allVar b1 b2 hnd hfresh, List.map_append, placeSeq_keys]

/-- Keys placed by the functional and variable phases together: a
permutation of the functional nodes followed by the sorted variable
nodes. -/
theorem layout_posV_keys (n : Nat) (conns : List GSConnection) :
    ((placeVars (placeFunc (orderPhase n conns))
        (allVarNodesOf (varEdgesOf conns) (varNodesOf (varEdgesOf conns)))
        (globalMinX (placeFunc (orderPhase n conns)))
        (globalBottomY (placeFunc (orderPhase n conns)) + VAR_ZONE_GAP)).map Prod.fst).Perm
      (funcNodesOf n (varNodesOf (varEdgesOf conns)) ++
        stableSort (fun a b => decide (a < b)) (varNodesOf (varEdgesOf conns))) := by
  have hsp := orderPhase_spec n conns
  have hjnd : ((orderPhase n conns).1.flatMap Prod.snd).Nodup :=
    hsp.2.nodup_iff.mpr (funcNodesOf_nodup _ _)
  have hchar := placeFunc_char2 (orderPhase n conns) hjnd
  have hkeysF : ((placeFunc (orderPhase n conns)).map Prod.fst).Perm
      (funcNodesOf n (varNodesOf (varEdgesOf conns))) := by
    rw [hchar]
    exact (funcEntriesOf_keys _ _).trans hsp.2
  have hav := allVarNodesOf_eq (varEdgesOf conns)
  have havnd : (allVarNodesOf (varEdgesOf conns) (varNodesOf (varEdgesOf conns))).Nodup := by
    rw [hav]
    exact stableSort_nodup _ _ (varNodesOf_nodup _)
  have hfresh : ∀ a ∈ allVarNodesOf (varEdgesOf conns) (varNodesOf (varEdgesOf conns)),
      a ∉ (placeFunc (orderPhase n conns)).map Prod.fst := by
    intro a ha hmem
    rw [hav, stableSort_mem] at ha
    have : a ∈ funcNodesOf n (varNodesOf (varEdgesOf conns)) := hkeysF.mem_iff.mp hmem
    exact ((mem_funcNodesOf n _ a).mp this).2 ha
  rw [placeVars_keys _ _ _ _ havnd hfresh, hav]
  exact List.Perm.append hkeysF (List.Perm.refl _)

theorem remaining_id (posV : PosMap) (n : Nat) (minX rY : Int)
    (hall : ∀ i < n, i ∈ posV.map Prod.fst) :
    placeRemaining posV n minX rY = posV := by
  rw [placeRemaining_char]
  have hfil : (List.range n).filter (fun i => !(posV.lookup i).isSome) = [] := by
    rw [List.filter_eq_nil_iff]
    intro a ha
    rw [List.mem_range] at ha
    have hsome := (lookup_isSome_iff_mem_keys posV a).mpr (hall a ha)
    simp [hsome]
  rw [hfil]
  simp [placeSeq]

/-- C3: amended.  When every connection endpoint lies below the node
count, the layout succeeds and places exactly the indices
0..nodeCount-1, each exactly once.  (As stated the claim is false:
an out-of-range variable-edge source becomes an extra entry of the
position map, and an out-of-range flow-edge endpoint makes the
adjacency push throw.) -/
theorem C3_layout_totality (nodeCount : Nat) (conns : List GSConnection)
    (hin : ∀ c ∈ conns, c.sourceNodeIndex < nodeCount ∧ c.targetNodeIndex < nodeCount) :
    ∃ m, layoutNodes nodeCount conns = some m ∧
      (m.map Prod.fst).Perm (List.range nodeCount) ∧
      (m.map Prod.fst).Nodup ∧ m.length = nodeCount ∧
      ∀ i, i ∈ m.map Prod.fst ↔ i < nodeCount := by
  have hcond : (flowEdgesOf conns).all
      (fun e => decide (e.sourceNodeIndex < nodeCount) &&
        decide (e.targetNodeIndex < nodeCount)) = true := by
    rw [List.all_eq_true]
    intro e he
    have hc := hin e (List.mem_of_mem_filter he)
    simp [hc.1, hc.2]
  have hsome : layoutNodes nodeCount conns = some (layoutNodesCore nodeCount conns) := by
    unfold layoutNodes
    rw [if_pos hcond]
  refine ⟨layoutNodesCore nodeCount conns, hsome, ?_⟩
  have hposV := layout_posV_keys nodeCount conns
  have hvsub : ∀ a ∈ varNodesOf (varEdgesOf conns), a < nodeCount := by
    intro a ha
    obtain ⟨e, he, rfl⟩ := (mem_varNodesOf _ a).mp ha
    exact (hin e (List.mem_of_mem_filter he)).1
  have hperm2 : (funcNodesOf nodeCount (varNodesOf (varEdgesOf conns)) ++
      stableSort (fun a b => decide (a < b)) (varNodesOf (varEdgesOf conns))).Perm
      (List.range nodeCount) := by
    apply perm_of_nodup_same_mem
    · exact List.Nodup.append (funcNodesOf_nodup _ _)
        (stableSort_nodup _ _ (varNodesOf_nodup _))
        (by
          intro a ha hb
          rw [stableSort_mem] at hb
          exact ((mem_funcNodesOf _ _ a).mp ha).2 hb)
    · exact List.nodup_range _
    · intro a
      rw [List.mem_append, stableSort_mem, mem_funcNodesOf, List.mem_range]
      constructor
      · rintro (⟨h1, _⟩ | h1)
        · exact h1
        · exact hvsub a h1
      · intro h1
        by_cases hv : a ∈ varNodesOf (varEdgesOf conns)
        · exact Or.inr hv
        · exact Or.inl ⟨h1, hv⟩
  have hkeysV := hposV.trans hperm2
  have hallkeys : ∀ i < nodeCount, i ∈ (placeVars (placeFunc (orderPhase nodeCount conns))
      (allVarNodesOf (varEdgesOf conns) (varNodesOf (varEdgesOf conns)))
      (globalMinX (placeFunc (orderPhase nodeCount conns)))
      (globalBottomY (placeFunc (orderPhase nodeCount conns)) + VAR_ZONE_GAP)).map Prod.fst := by
    intro i hi
    exact hkeysV.mem_iff.mpr (List.mem_range.mpr hi)
  have hfinal : layoutNodesCore nodeCount conns =
      placeVars (placeFunc (orderPhase nodeCount conns))
        (allVarNodesOf (varEdgesOf conns) (varNodesOf (varEdgesOf conns)))
        (globalMinX (placeFunc (orderPhase nodeCount conns)))
        (globalBottomY (placeFunc (orderPhase nodeCount conns)) + VAR_ZONE_GAP) := by
    rw [layoutNodesCore_eq]
    exact remaining_id _ nodeCount _ _ hallkeys
  rw [hfinal]
  refine ⟨hkeysV, hkeysV.nodup_iff.mpr (List.nodup_range _), ?_, ?_⟩
  · have hlen := hkeysV.length_eq
    rw [List.length_range, List.length_map] at hlen
    exact hlen
  · intro i
    rw [hkeysV.mem_iff, List.mem_range]

/-- C3: refuted as stated.  A variable edge sourced at node 5 with a
single-node graph still succeeds but yields two entries, one keyed
outside the node range; the same edge as a flow connection makes the
adjacency push fail. -/
theorem C3_counterexample :
    layoutNodes 1 [⟨5, 0, 0, 0, ConnKind.varc⟩] =
      some [(0, (0, -70)), (5, (0, 90))] ∧
    ([(0, (0, -70)), (5, (0, 90))] : PosMap).length ≠ 1 ∧
    (5 : Nat) ∈ ([(0, (0, -70)), (5, (0, 90))] : PosMap).map Prod.fst ∧ ¬ (5 : Nat) < 1 ∧
    layoutNodes 1 [⟨5, 0, 0, 0, ConnKind.flow⟩] = none := by decide

theorem C3_witness :
    ∃ m, layoutNodes 1 [] = some m ∧
      (m.map Prod.fst).Perm (List.range 1) ∧
      (m.map Prod.fst).Nodup ∧ m.length = 1 ∧
      ∀ i, i ∈ m.map Prod.fst ↔ i < 1 :=
  C3_layout_totality 1 [] (by simp)

/-- Distinctness of a three-zone position list: a functional zone of
pairwise distinct positions capped by bottomY, a variable zone
between varBaseY and the row base, and a remaining row exactly at
the row base. -/
theorem layout_segments_distinct (posF vseq rseq : PosMap)
    (bottomY varBaseY rBaseY : Int)
    (hA : ∀ p ∈ posF, ∀ q ∈ posF, p.2 = q.2 → p.1 = q.1)
    (hB : ∀ p ∈ posF, p.2.2 ≤ bottomY)
    (hCD : ∀ p ∈ vseq, ∀ q ∈ vseq, p.2 = q.2 → p.1 = q.1)
    (hClow : ∀ p ∈ vseq, varBaseY ≤ p.2.2)
    (hChigh : ∀ p ∈ vseq, p.2.2 < rBaseY)
    (hE : ∀ p ∈ rseq, p.2.2 = rBaseY)
    (hF : ∀ p ∈ rseq, ∀ q ∈ rseq, p.2 = q.2 → p.1 = q.1)
    (hG : bottomY < varBaseY)
    (hGR : bottomY < rBaseY) :
    ∀ p ∈ (posF ++ vseq) ++ rseq, ∀ q ∈ (posF ++ vseq) ++ rseq,
      p.1 ≠ q.1 → p.2 ≠ q.2 := by
  have hylt : ∀ (p q : Nat × Int × Int), p.2.2 < q.2.2 → p.2 ≠ q.2 := by
    intro p q hlt heq
    rw [heq] at hlt
    exact lt_irrefl _ hlt
  intro p hp q hq hne heq
  rcases List.mem_append.mp hp with hp1 | hpR
  · rcases List.mem_append.mp hp1 with hpF | hpV
    · rcases List.mem_append.mp hq with hq1 | hqR
      · rcases List.mem_append.mp hq1 with hqF | hqV
        · exact hne (hA p hpF q hqF heq)
        · exact hylt p q (lt_of_le_of_lt (hB p hpF)
            (lt_of_lt_of_le hG (hClow q hqV))) heq
      · exact hylt p q (by rw [hE q hqR]; exact lt_of_le_of_lt (hB p hpF) hGR) heq
    · rcases List.mem_append.mp hq with hq1 | hqR
      · rcases List.mem_append.mp hq1 with hqF | hqV
        · exact hylt q p (lt_of_le_of_lt (hB q hqF)
            (lt_of_lt_of_le hG (hClow p hpV))) heq.symm
        · exact hne (hCD p hpV q hqV heq)
      · exact hylt p q (by rw [hE q hqR]; exact hChigh p hpV) heq
  · rcases List.mem_append.mp hq with hq1 | hqR
    · rcases List.mem_append.mp hq1 with hqF | hqV
      · exact hylt q p (by rw [hE p hpR]; exact lt_of_le_of_lt (hB q hqF) hGR) heq.symm
      · exact hylt q p (by rw [hE p hpR]; exact hChigh q hqV) heq.symm
    · exact hne (hF p hpR q hqR heq)

theorem varCoords_inj (minX varBaseY : Int) (i j : Nat)
    (h : (minX + ((i % VAR_COLS : Nat) : Int) * VAR_CELL_W,
          varBaseY + ((i / VAR_COLS : Nat) : Int) * VAR_CELL_H) =
         (minX + ((j % VAR_COLS : Nat) : Int) * VAR_CELL_W,
          varBaseY + ((j / VAR_COLS : Nat) : Int) * VAR_CELL_H)) : i = j := by
  rw [Prod.mk.injEq] at h
  obtain ⟨h1, h2⟩ := h
  simp only [VAR_CELL_W, VAR_CELL_H, VAR_COLS] at h1 h2
  omega

theorem rowCoords_inj (minX rY : Int) (i j : Nat)
    (h : (minX + (i : Int) * NODE_W, rY) = (minX + (j : Int) * NODE_W, rY)) : i = j := by
  rw [Prod.mk.injEq] at h
  obtain ⟨h1, _⟩ := h
  simp only [NODE_W] at h1
  omega

theorem layout_var_fresh (n : Nat) (conns : List GSConnection) :
    ∀ a ∈ allVarNodesOf (varEdgesOf conns) (varNodesOf (varEdgesOf conns)),
      a ∉ (placeFunc (orderPhase n conns)).map Prod.fst := by
  have hsp := orderPhase_spec n conns
  have hjnd : ((orderPhase n conns).1.flatMap Prod.snd).Nodup :=
    hsp.2.nodup_iff.mpr (funcNodesOf_nodup _ _)
  have hchar := placeFunc_char2 (orderPhase n conns) hjnd
  have hkeysF : ((placeFunc (orderPhase n conns)).map Prod.fst).Perm
      (funcNodesOf n (varNodesOf (varEdgesOf conns))) := by
    rw [hchar]
    exact (funcEntriesOf_keys _ _).trans hsp.2
  intro a ha hmem
  rw [allVarNodesOf_eq, stableSort_mem] at ha
  have : a ∈ funcNodesOf n (varNodesOf (varEdgesOf conns)) := hkeysF.mem_iff.mp hmem
  exact ((mem_funcNodesOf n _ a).mp this).2 ha

/-- C10: confirmed.  Whenever the layout succeeds, distinct node
indices receive distinct positions: functional entries differ in x
across layers and in y inside a layer, the variable grid and the
orphan row are injective in their cell index, and the three zones
occupy disjoint y bands. -/
theorem C10_distinct_positions (n : Nat) (conns : List GSConnection) (m : PosMap)
    (hm : layoutNodes n conns = some m) :
    ∀ p ∈ m, ∀ q ∈ m, p.1 ≠ q.1 → p.2 ≠ q.2 := by
  have hcore : m = layoutNodesCore n conns := by
    unfold layoutNodes at hm
    split at hm
    · exact (Option.some_inj.mp hm).symm
    · exact absurd hm (by simp)
  subst hcore
  rw [layoutNodesCore_eq]
  obtain ⟨hknd, hjperm⟩ := orderPhase_spec n conns
  have hjnd : ((orderPhase n conns).1.flatMap Prod.snd).Nodup :=
    hjperm.nodup_iff.mpr (funcNodesOf_nodup _ _)
  have hchar := placeFunc_char2 (orderPhase n conns) hjnd
  have havnd : (allVarNodesOf (varEdgesOf conns) (varNodesOf (varEdgesOf conns))).Nodup := by
    rw [allVarNodesOf_eq]
    exact stableSort_nodup _ _ (varNodesOf_nodup _)
  rw [placeVars_char (placeFunc (orderPhase n conns))
    (allVarNodesOf (varEdgesOf conns) (varNodesOf (varEdgesOf conns)))
    (globalMinX (placeFunc (orderPhase n conns)))
    (globalBottomY (placeFunc (orderPhase n conns)) + VAR_ZONE_GAP)
    havnd (layout_var_fresh n conns)]
  rw [placeRemaining_char]
  rw [List.append_assoc, ← List.append_assoc]
  apply layout_segments_distinct _ _ _
    (globalBottomY (placeFunc (orderPhase n conns)))
    (globalBottomY (placeFunc (orderPhase n conns)) + VAR_ZONE_GAP)
    (if 0 < (allVarNodesOf (varEdgesOf conns) (varNodesOf (varEdgesOf conns))).length then
      globalBottomY (placeFunc (orderPhase n conns)) + VAR_ZONE_GAP +
        ((((allVarNodesOf (varEdgesOf conns) (varNodesOf (varEdgesOf conns))).length - 1) /
          VAR_COLS + 1 : Nat) : Int) * VAR_CELL_H + VAR_ZONE_GAP
    else globalBottomY (placeFunc (orderPhase n conns)) + VAR_ZONE_GAP + VAR_ZONE_GAP)
  · intro p hp q hq heq
    rw [hchar] at hp hq
    exact funcEntriesOf_distinct _ _ hknd p q hp hq heq
  · exact globalBottomY_ge _
  · intro p hp q hq heq
    exact placeSeq_inj _ (fun i j h => varCoords_inj _ _ i j h) 0 _ p q hp hq heq
  · intro p hp
    obtain ⟨i, hi, _, hc⟩ := placeSeq_mem _ 0 _ p hp
    rw [hc]
    simp only [VAR_CELL_H]
    have hnn : (0 : Int) ≤ (((0 + i) / VAR_COLS : Nat) : Int) := Int.natCast_nonneg _
    omega
  · intro p hp
    obtain ⟨i, hi, _, hc⟩ := placeSeq_mem _ 0 _ p hp
    have hlen : 0 < (allVarNodesOf (varEdgesOf conns)
        (varNodesOf (varEdgesOf conns))).length := by omega
    rw [hc, if_pos hlen]
    simp only [VAR_CELL_H, VAR_COLS, VAR_ZONE_GAP]
    have hdiv : (0 + i) / 6 ≤ ((allVarNodesOf (varEdgesOf conns)
        (varNodesOf (varEdgesOf conns))).length - 1) / 6 :=
      Nat.div_le_div_right (by omega)
    omega
  · intro p hp
    obtain ⟨i, hi, _, hc⟩ := placeSeq_mem _ 0 _ p hp
    rw [hc]
  · intro p hp q hq heq
    exact placeSeq_inj _ (fun i j h => rowCoords_inj _ _ i j h) 0 _ p q hp hq heq
  · simp only [VAR_ZONE_GAP]
    omega
  · by_cases hlen : 0 < (allVarNodesOf (varEdgesOf conns)
        (varNodesOf (varEdgesOf conns))).length
    · rw [if_pos hlen]
      simp only [VAR_CELL_H, VAR_ZONE_GAP]
      have hnn : (0 : Int) ≤ ((((allVarNodesOf (varEdgesOf conns)
          (varNodesOf (varEdgesOf conns))).length - 1) / VAR_COLS + 1 : Nat) : Int) :=
        Int.natCast_nonneg _
      omega
    · rw [if_neg hlen]
      simp only [VAR_ZONE_GAP]
      omega

theorem C10_witness :
    layoutNodes 2 [] = some [(0, (0, -140)), (1, (0, 0))] ∧
    ((0, ((0 : Int), (-140 : Int))) : Nat × Int × Int).2 ≠
      ((1, ((0 : Int), (0 : Int))) : Nat × Int × Int).2 :=
  ⟨by decide,
   C10_distinct_positions 2 [] [(0, (0, -140)), (1, (0, 0))] (by decide)
     (0, (0, -140)) (by decide) (1, (0, 0)) (by decide) (by decide)⟩
